import Mathlib

/-!
Verification of the content-indexing and static-page-regeneration engine of
`rat.py` (Rat Reviews local blog publisher).

Python strings are modelled as lists of characters (`Str`); the Python string
primitives used by the program (`strip`, `split`, `splitlines`, `replace`,
`split(sep, 1)`, substring membership) are embedded below with CPython's
semantics.  File-system state is modelled as a list of (path, contents) pairs,
with paths given as segment lists relative to the script directory.
-/

namespace Rat

abbrev Str := List Char

/-- The whitespace characters recognised by CPython's `str.isspace`
(and therefore stripped by `str.strip()`). -/
def pyWhitespace : List Char :=
  [' ', '\t', '\n', '\r', '\x0b', '\x0c',
   '\x1c', '\x1d', '\x1e', '\x1f', '\x85', '\xa0',
   ' ', ' ', ' ', ' ', ' ', ' ', ' ',
   ' ', ' ', ' ', ' ', ' ',
   ' ', ' ', ' ', ' ', '　']

def pyIsSpace (c : Char) : Bool := pyWhitespace.contains c

/-- Python `str.strip()` with no argument: drop leading and trailing whitespace. -/
def pyStripLeft (s : Str) : Str := s.dropWhile pyIsSpace

def pyStripRight (s : Str) : Str := (s.reverse.dropWhile pyIsSpace).reverse

def pyStrip (s : Str) : Str := pyStripRight (pyStripLeft s)

/-- Python substring membership `pat in s`. -/
def containsSub (pat : Str) : Str → Bool
  | [] => pat.isPrefixOf []
  | c :: r => pat.isPrefixOf (c :: r) || containsSub pat r

/-- The line-boundary characters of CPython's `str.splitlines`
(`\r\n` is treated as a single boundary by `pySplitlinesAux`). -/
def isLineBreak (c : Char) : Bool :=
  c = '\n' || c = '\r' || c = '\x0b' || c = '\x0c' ||
  c = '\x1c' || c = '\x1d' || c = '\x1e' || c = '\x85' ||
  c = ' ' || c = ' '

/-- Worker for `pySplitlines`.  `skipLF` records that the previous character
was a `\r`, so that an immediately following `\n` belongs to the same `\r\n`
boundary and does not terminate a second line. -/
def pySplitlinesAux (skipLF : Bool) (acc : Str) : Str → List Str
  | [] => if acc.isEmpty then [] else [acc.reverse]
  | c :: rest =>
    if skipLF = true ∧ c = '\n' then pySplitlinesAux false acc rest
    else if isLineBreak c then acc.reverse :: pySplitlinesAux (c = '\r') [] rest
    else pySplitlinesAux false (c :: acc) rest

/-- Python `str.splitlines()`. -/
def pySplitlines (s : Str) : List Str := pySplitlinesAux false [] s

/-- The first occurrence of `pat` in `s`, as the pair
(part before it, part after it); `none` when `pat` does not occur. -/
def splitOnce? (pat : Str) : Str → Option (Str × Str)
  | [] => if pat.isEmpty then some ([], []) else none
  | c :: rest =>
    if pat.isPrefixOf (c :: rest) then some ([], (c :: rest).drop pat.length)
    else
      match splitOnce? pat rest with
      | some pr => some (c :: pr.1, pr.2)
      | none => none

/-- Python `str.split(sep)`, fuelled so that it reduces structurally; each
split consumes at least one character, so `s.length` is always enough fuel. -/
def pySplitFuel (sep : Str) : Nat → Str → List Str
  | 0, s => [s]
  | Nat.succ fuel, s =>
    match splitOnce? sep s with
    | none => [s]
    | some pr => pr.1 :: pySplitFuel sep fuel pr.2

/-- Python `str.split(sep)` for a non-empty separator (CPython raises on an
empty separator; the program only splits on `"<!--"`, `"-->"` and `"-"`). -/
def pySplit (sep s : Str) : List Str := pySplitFuel sep s.length s

def pyReplaceFuel (old new : Str) : Nat → Str → Str
  | 0, s => s
  | Nat.succ fuel, s =>
    match splitOnce? old s with
    | none => s
    | some pr => pr.1 ++ new ++ pyReplaceFuel old new fuel pr.2

/-- Python `str.replace(old, new)` for a non-empty `old`: replace all
occurrences, scanning left to right without overlap. -/
def pyReplace (old new s : Str) : Str :=
  match old with
  | [] => s
  | _ :: _ => pyReplaceFuel old new s.length s

/-- Python `line.split(sep, 1)` for a single-character separator, as the pair
(before the first occurrence, after it).  When `sep` does not occur the result
is `(line, [])`; the program only uses the pair under an `if sep in line` guard. -/
def pySplitFirstChar (sep : Char) : Str → Str × Str
  | [] => ([], [])
  | c :: rest =>
    if c = sep then ([], rest)
    else
      let kv := pySplitFirstChar sep rest
      (c :: kv.1, kv.2)

/-- Python `dict` as an insertion-ordered association list: assigning to an
existing key overwrites the value in place, a new key is appended. -/
abbrev PyDict := List (Str × Str)

def dictInsert (m : PyDict) (k v : Str) : PyDict :=
  if m.any (fun p => p.1 == k) then
    m.map (fun p => if p.1 == k then (k, v) else p)
  else m ++ [(k, v)]

def dictContains (m : PyDict) (k : Str) : Bool := m.any (fun p => p.1 == k)

/-- Python `dict.get(k, d)` (also used for the guarded `m[k]`). -/
def dictGetD (m : PyDict) (k d : Str) : Str :=
  match m.find? (fun p => p.1 == k) with
  | some p => p.2
  | none => d

/-! ### Dates

`datetime.date` values, compared chronologically (lexicographically on
year, month, day). -/

structure PDate where
  y : Nat
  m : Nat
  d : Nat
deriving DecidableEq

def PDate.le (a b : PDate) : Prop :=
  a.y < b.y ∨ (a.y = b.y ∧ (a.m < b.m ∨ (a.m = b.m ∧ a.d ≤ b.d)))

instance (a b : PDate) : Decidable (PDate.le a b) := by
  unfold PDate.le; exact inferInstance

def PDate.leB (a b : PDate) : Bool := decide (PDate.le a b)

theorem PDate.le_total (a b : PDate) : PDate.le a b ∨ PDate.le b a := by
  unfold PDate.le
  rcases a with ⟨ay, am, ad⟩; rcases b with ⟨by', bm, bd⟩
  simp only
  omega

theorem PDate.le_trans {a b c : PDate} (h1 : PDate.le a b) (h2 : PDate.le b c) :
    PDate.le a c := by
  unfold PDate.le at *
  rcases a with ⟨ay, am, ad⟩; rcases b with ⟨by', bm, bd⟩; rcases c with ⟨cy, cm, cd⟩
  simp only at *
  omega

def isLeap (y : Nat) : Bool := (y % 4 == 0 && y % 100 != 0) || y % 400 == 0

def daysInMonth (y m : Nat) : Nat :=
  if m = 2 then (if isLeap y then 29 else 28)
  else if m = 4 ∨ m = 6 ∨ m = 9 ∨ m = 11 then 30
  else 31

def digitsVal (s : Str) : Nat := s.foldl (fun n c => n * 10 + (c.toNat - 48)) 0

/-- `datetime.datetime.strptime(s, "%Y-%m-%d")`: exactly four digits for `%Y`,
one or two digits for `%m` and `%d`, the whole string consumed, and the result
a valid proleptic-Gregorian calendar date (CPython validates month length and
leap years and requires `year >= MINYEAR = 1`).  Digits are modelled as ASCII. -/
def parsePyDate (s : Str) : Option PDate :=
  match pySplit ([ '-' ]) s with
  | [ys, ms, ds] =>
    if ys.length = 4 ∧ ys.all Char.isDigit ∧
       (ms.length = 1 ∨ ms.length = 2) ∧ ms.all Char.isDigit ∧
       (ds.length = 1 ∨ ds.length = 2) ∧ ds.all Char.isDigit then
      let y := digitsVal ys
      let m := digitsVal ms
      let d := digitsVal ds
      if 1 ≤ y ∧ 1 ≤ m ∧ m ≤ 12 ∧ 1 ≤ d ∧ d ≤ daysInMonth y m then
        some ⟨y, m, d⟩
      else none
    else none
  | _ => none

/-! ### Metadata codec -/

/-- The opening delimiter `<!--` of the metadata comment block. -/
def dOpen : Str := ['<', '!', '-', '-']

/-- The closing delimiter `-->` of the metadata comment block. -/
def dClose : Str := ['-', '-', '>']

/-- One iteration of the metadata line loop: `if ":" in line: k, v =
line.split(":", 1); meta[k.strip()] = v.strip()`. -/
def metaLineStep (m : PyDict) (line : Str) : PyDict :=
  if line.contains ':' then
    let kv := pySplitFirstChar ':' line
    dictInsert m (pyStrip kv.1) (pyStrip kv.2)
  else m

/-- The shared metadata-parsing loop of `update_archive` (lines 186-191) and
`update_recent` (lines 284-289): take the text between the first `<!--` and the
next `-->`, strip it, split into lines, and for each line containing a colon
split on the first colon and insert the stripped key/value into a dict. -/
def scanMetaDict (text : Str) : PyDict :=
  let metaBlock := (pySplit dClose ((pySplit dOpen text).getD 1 [])).getD 0 []
  (pySplitlines (pyStrip metaBlock)).foldl metaLineStep []

/-- The metadata comment block written by `publish_review` (lines 141-150). -/
def serializeMeta (title artist album year rtype author date : Str) : Str :=
  ("<!--\nTITLE: ").toList ++ title ++ ("\nARTIST: ").toList ++ artist ++
  ("\nALBUM: ").toList ++ album ++ ("\nYEAR: ").toList ++ year ++
  ("\nTYPE: ").toList ++ rtype ++ ("\nAUTHOR: ").toList ++ author ++
  ("\nDATE: ").toList ++ date ++ ("\n-->\n").toList

example : pyStrip (("  a b\t\n").toList) = ("a b").toList := by decide

example : pySplitlines (("ab\ncd\r\nef").toList) =
    [("ab").toList, ("cd").toList, ("ef").toList] := by decide

example : pySplit (("-").toList) (("2024-03-05").toList) =
    [("2024").toList, ("03").toList, ("05").toList] := by decide

example : parsePyDate (("2024-02-30").toList) = none := by decide

example : parsePyDate (("2024-2-5").toList) = some ⟨2024, 2, 5⟩ := by decide

example : parsePyDate (("2024-03-05x").toList) = none := by decide

example :
    dictGetD (scanMetaDict (serializeMeta (("t").toList) (("ar").toList)
      (("al").toList) (("1999").toList) (("Albums").toList) (("Ape").toList)
      (("2024-03-05").toList))) (("DATE").toList) [] = ("2024-03-05").toList := by
  decide

/-! ### Lemmas about the embedded string primitives -/

theorem mem_of_getLast?_eq {l : Str} {a : Char} (h : l.getLast? = some a) : a ∈ l := by
  induction l with
  | nil => simp at h
  | cons x t ih =>
    cases t with
    | nil => simp_all
    | cons y t2 =>
      rw [List.getLast?_cons_cons] at h
      exact List.mem_cons_of_mem _ (ih h)

theorem containsSub_nil {pat : Str} (h : pat ≠ []) : containsSub pat [] = false := by
  cases pat with
  | nil => exact absurd rfl h
  | cons p ps => simp [containsSub, List.isPrefixOf]

theorem containsSub_of_prefix {pat s : Str} (h : pat <+: s) : containsSub pat s = true := by
  cases s with
  | nil =>
    rw [List.prefix_nil] at h
    subst h; rfl
  | cons c r =>
    have : pat.isPrefixOf (c :: r) = true := List.isPrefixOf_iff_prefix.2 h
    simp [containsSub, this]

theorem prefix_fits {pat a b : Str} (h : pat <+: a ++ b) (hle : pat.length ≤ a.length) :
    pat <+: a := by
  obtain ⟨r, hr⟩ := h
  have h1 : (a ++ b).take pat.length = a.take pat.length := by
    rw [List.take_append_eq_append_take]
    have : pat.length - a.length = 0 := by omega
    simp [this]
  have h2 : (pat ++ r).take pat.length = pat := List.take_left _ _
  rw [hr] at h2
  rw [h1] at h2
  rw [← h2]
  exact List.take_prefix _ _

theorem prefix_spills {pat a b : Str} (h : pat <+: a ++ b) (hlt : a.length < pat.length) :
    ∃ p', pat = a ++ p' ∧ p' <+: b ∧ p' ≠ [] := by
  obtain ⟨r, hr⟩ := h
  have ha : pat.take a.length = a := by
    have h1 : (a ++ b).take a.length = a := List.take_left _ _
    have h2 : (pat ++ r).take a.length = pat.take a.length := by
      rw [List.take_append_eq_append_take]
      have : a.length - pat.length = 0 := by omega
      simp [this]
    rw [hr] at h2
    rw [h1] at h2
    exact h2.symm
  refine ⟨pat.drop a.length, ?_, ?_, ?_⟩
  · conv_lhs => rw [← List.take_append_drop a.length pat]
    rw [ha]
  · have : (pat.take a.length ++ pat.drop a.length) ++ r = a ++ b := by
      rw [List.take_append_drop]; exact hr
    rw [ha, List.append_assoc] at this
    have hb : pat.drop a.length ++ r = b := by
      exact List.append_cancel_left this
    exact ⟨r, hb⟩
  · have : (pat.drop a.length).length = pat.length - a.length := List.length_drop _ _
    intro hnil
    rw [hnil] at this
    simp at this
    omega

theorem isPrefixOf_append_of_head {pat : Str} (hne : pat ≠ []) {a b : Str} {c : Char}
    (hb : b.head? = some c) (hc : c ∉ pat) :
    pat.isPrefixOf (a ++ b) = pat.isPrefixOf a := by
  by_cases hle : pat.length ≤ a.length
  · rw [Bool.eq_iff_iff]
    rw [List.isPrefixOf_iff_prefix, List.isPrefixOf_iff_prefix]
    constructor
    · intro h; exact prefix_fits h hle
    · intro h; exact h.trans (List.prefix_append a b)
  · push_neg at hle
    have h1 : pat.isPrefixOf a = false := by
      rw [← Bool.not_eq_true, List.isPrefixOf_iff_prefix]
      intro h
      exact absurd h.length_le (by omega)
    have h2 : pat.isPrefixOf (a ++ b) = false := by
      rw [← Bool.not_eq_true, List.isPrefixOf_iff_prefix]
      intro h
      obtain ⟨p', hp, hpb, hpn⟩ := prefix_spills h hle
      cases p' with
      | nil => exact hpn rfl
      | cons q qs =>
        obtain ⟨r, hr⟩ := hpb
        have : b.head? = some q := by rw [← hr]; rfl
        rw [hb] at this
        have hq : q = c := by
          have h' : c = q := by injection this
          exact h'.symm
        apply hc
        rw [hp, ← hq]
        exact List.mem_append_right a (List.mem_cons_self q qs)
    rw [h1, h2]

theorem isPrefixOf_append_of_last {pat : Str} (hne : pat ≠ []) {a b : Str} {c : Char}
    (ha : a.getLast? = some c) (hc : c ∉ pat) :
    pat.isPrefixOf (a ++ b) = pat.isPrefixOf a := by
  by_cases hle : pat.length ≤ a.length
  · rw [Bool.eq_iff_iff]
    rw [List.isPrefixOf_iff_prefix, List.isPrefixOf_iff_prefix]
    constructor
    · intro h; exact prefix_fits h hle
    · intro h; exact h.trans (List.prefix_append a b)
  · push_neg at hle
    have h1 : pat.isPrefixOf a = false := by
      rw [← Bool.not_eq_true, List.isPrefixOf_iff_prefix]
      intro h
      exact absurd h.length_le (by omega)
    have h2 : pat.isPrefixOf (a ++ b) = false := by
      rw [← Bool.not_eq_true, List.isPrefixOf_iff_prefix]
      intro h
      obtain ⟨p', hp, _, _⟩ := prefix_spills h hle
      apply hc
      rw [hp]
      exact List.mem_append_left p' (mem_of_getLast?_eq ha)
    rw [h1, h2]

theorem containsSub_cons {pat : Str} {c : Char} {r : Str} :
    containsSub pat (c :: r) = (pat.isPrefixOf (c :: r) || containsSub pat r) := rfl

theorem containsSub_append_of_head {pat : Str} (hne : pat ≠ []) {a b : Str} {c : Char}
    (hb : b.head? = some c) (hc : c ∉ pat) :
    containsSub pat (a ++ b) = (containsSub pat a || containsSub pat b) := by
  induction a with
  | nil => simp [containsSub_nil hne]
  | cons x a2 ih =>
    rw [List.cons_append, containsSub_cons, ← List.cons_append,
        isPrefixOf_append_of_head hne hb hc, ih, containsSub_cons, Bool.or_assoc]

theorem containsSub_append_of_last {pat : Str} (hne : pat ≠ []) {a b : Str} {c : Char}
    (ha : a.getLast? = some c) (hc : c ∉ pat) :
    containsSub pat (a ++ b) = (containsSub pat a || containsSub pat b) := by
  induction a with
  | nil => simp at ha
  | cons x a2 ih =>
    rw [List.cons_append, containsSub_cons, ← List.cons_append,
        isPrefixOf_append_of_last hne ha hc, containsSub_cons, Bool.or_assoc]
    cases a2 with
    | nil => simp [containsSub_nil hne]
    | cons y t =>
      rw [List.getLast?_cons_cons] at ha
      rw [ih ha]

theorem splitOnce?_eq_none {pat s : Str} (h : containsSub pat s = false) :
    splitOnce? pat s = none := by
  induction s with
  | nil =>
    have hne : pat ≠ [] := by
      rintro rfl
      simp [containsSub, List.isPrefixOf] at h
    cases pat with
    | nil => exact absurd rfl hne
    | cons p ps => simp [splitOnce?]
  | cons c r ih =>
    rw [containsSub_cons, Bool.or_eq_false_iff] at h
    simp only [splitOnce?, h.1, Bool.false_eq_true, if_false, ih h.2]

theorem splitOnce?_append {pat a b : Str} (hne : pat ≠ [])
    (ha : containsSub pat a = false)
    (hlast : ∀ c, a.getLast? = some c → c ∉ pat) :
    splitOnce? pat (a ++ (pat ++ b)) = some (a, b) := by
  induction a with
  | nil =>
    cases pat with
    | nil => exact absurd rfl hne
    | cons p ps =>
      have hpre : (p :: ps).isPrefixOf ((p :: ps) ++ b) = true :=
        List.isPrefixOf_iff_prefix.2 (List.prefix_append _ _)
      rw [List.nil_append]
      rw [List.cons_append]
      simp only [splitOnce?]
      rw [← List.cons_append, hpre]
      simp [List.drop_left]
  | cons x a2 ih =>
    have hfalse : pat.isPrefixOf ((x :: a2) ++ (pat ++ b)) = false := by
      rw [← Bool.not_eq_true, List.isPrefixOf_iff_prefix]
      intro h
      by_cases hle : pat.length ≤ (x :: a2).length
      · have := containsSub_of_prefix (prefix_fits h hle)
        rw [ha] at this; exact Bool.false_ne_true this
      · push_neg at hle
        obtain ⟨p', hp, _, _⟩ := prefix_spills h hle
        obtain ⟨cl, hcl⟩ : ∃ cl, (x :: a2).getLast? = some cl := by
          cases h' : (x :: a2).getLast? with
          | none => simp at h'
          | some cl => exact ⟨cl, rfl⟩
        apply hlast cl hcl
        rw [hp]
        exact List.mem_append_left p' (mem_of_getLast?_eq hcl)
    have ha2 : containsSub pat a2 = false := by
      rw [containsSub_cons, Bool.or_eq_false_iff] at ha
      exact ha.2
    have hlast2 : ∀ c, a2.getLast? = some c → c ∉ pat := by
      intro c hc
      apply hlast
      cases a2 with
      | nil => simp at hc
      | cons y t => rw [List.getLast?_cons_cons]; exact hc
    rw [List.cons_append]
    simp only [splitOnce?]
    rw [← List.cons_append, hfalse]
    simp only [Bool.false_eq_true, if_false, ih ha2 hlast2]

theorem splitOnce?_post_length {pat s : Str} {pr : Str × Str} (hne : pat ≠ [])
    (h : splitOnce? pat s = some pr) : pr.2.length < s.length := by
  induction s generalizing pr with
  | nil =>
    cases pat with
    | nil => exact absurd rfl hne
    | cons p ps => simp [splitOnce?] at h
  | cons c r ih =>
    simp only [splitOnce?] at h
    by_cases hp : pat.isPrefixOf (c :: r) = true
    · rw [if_pos hp] at h
      have : pr = ([], (c :: r).drop pat.length) := by injection h; simp_all
      rw [this]
      have h1 : ((c :: r).drop pat.length).length = (c :: r).length - pat.length :=
        List.length_drop _ _
      have h2 : 1 ≤ pat.length := by
        cases pat with
        | nil => exact absurd rfl hne
        | cons q qs => simp
      simp only [h1, List.length_cons]
      omega
    · rw [if_neg hp] at h
      cases hrec : splitOnce? pat r with
      | none => rw [hrec] at h; simp at h
      | some pr' =>
        rw [hrec] at h
        have : pr = (c :: pr'.1, pr'.2) := by injection h; simp_all
        rw [this]
        have := ih hrec
        simp only [List.length_cons]
        omega

theorem pySplitFuel_congr {sep : Str} (hne : sep ≠ []) :
    ∀ (f1 f2 : Nat) (s : Str), s.length ≤ f1 → s.length ≤ f2 →
      pySplitFuel sep f1 s = pySplitFuel sep f2 s := by
  intro f1
  induction f1 with
  | zero =>
    intro f2 s h1 _
    have : s = [] := List.length_eq_zero.1 (by omega)
    subst this
    cases f2 with
    | zero => rfl
    | succ g2 =>
      have : splitOnce? sep [] = none := by
        cases sep with
        | nil => exact absurd rfl hne
        | cons p ps => simp [splitOnce?]
      simp [pySplitFuel, this]
  | succ g ih =>
    intro f2 s h1 h2
    cases f2 with
    | zero =>
      have : s = [] := List.length_eq_zero.1 (by omega)
      subst this
      have : splitOnce? sep [] = none := by
        cases sep with
        | nil => exact absurd rfl hne
        | cons p ps => simp [splitOnce?]
      simp [pySplitFuel, this]
    | succ g2 =>
      simp only [pySplitFuel]
      cases hso : splitOnce? sep s with
      | none => rfl
      | some pr =>
        have hlt := splitOnce?_post_length hne hso
        show pr.1 :: pySplitFuel sep g pr.2 = pr.1 :: pySplitFuel sep g2 pr.2
        rw [ih g2 pr.2 (by omega) (by omega)]

theorem pySplit_no_occ {sep s : Str} (h : containsSub sep s = false) :
    pySplit sep s = [s] := by
  unfold pySplit
  cases hl : s.length with
  | zero => rfl
  | succ n => simp only [pySplitFuel, splitOnce?_eq_none h]

theorem pySplit_append {sep a b : Str} (hne : sep ≠ [])
    (ha : containsSub sep a = false)
    (hlast : ∀ c, a.getLast? = some c → c ∉ sep) :
    pySplit sep (a ++ (sep ++ b)) = a :: pySplit sep b := by
  have hso := splitOnce?_append (b := b) hne ha hlast
  unfold pySplit
  have hsep1 : 1 ≤ sep.length := by
    cases sep with
    | nil => exact absurd rfl hne
    | cons p ps => simp
  have hlen : (a ++ (sep ++ b)).length = a.length + sep.length + b.length := by
    simp [List.length_append]; omega
  obtain ⟨m, hm⟩ : ∃ m, (a ++ (sep ++ b)).length = m + 1 :=
    ⟨(a ++ (sep ++ b)).length - 1, by omega⟩
  rw [hm]
  simp only [pySplitFuel, hso]
  rw [pySplitFuel_congr hne m b.length b (by omega) (by omega)]

/-! ### Strip, splitlines, split-first and dict lemmas -/

theorem pyStripLeft_cons_space {c : Char} {s : Str} (h : pyIsSpace c = true) :
    pyStripLeft (c :: s) = pyStripLeft s := by
  simp [pyStripLeft, List.dropWhile_cons, h]

theorem pyStripLeft_eq_self {s : Str} (h : ∀ c, s.head? = some c → pyIsSpace c = false) :
    pyStripLeft s = s := by
  cases s with
  | nil => rfl
  | cons c r =>
    have := h c rfl
    simp [pyStripLeft, List.dropWhile_cons, this]

theorem pyStripRight_append_space {c : Char} {s : Str} (h : pyIsSpace c = true) :
    pyStripRight (s ++ [c]) = pyStripRight s := by
  simp [pyStripRight, List.reverse_append, List.dropWhile_cons, h]

theorem pyStripRight_eq_self {s : Str} (h : ∀ c, s.getLast? = some c → pyIsSpace c = false) :
    pyStripRight s = s := by
  rcases List.eq_nil_or_concat s with rfl | ⟨s', c, rfl⟩
  · rfl
  · have hc := h c (by simp)
    simp [pyStripRight, List.reverse_append, List.dropWhile_cons, hc]

theorem pyStrip_cons_space_good {v : Str}
    (hh : ∀ c, v.head? = some c → pyIsSpace c = false)
    (hl : ∀ c, v.getLast? = some c → pyIsSpace c = false) :
    pyStrip (' ' :: v) = v := by
  unfold pyStrip
  rw [pyStripLeft_cons_space (by decide), pyStripLeft_eq_self hh, pyStripRight_eq_self hl]

theorem pySplitlinesAux_newline {l rest : Str} (hl : ∀ c ∈ l, isLineBreak c = false) :
    ∀ acc, pySplitlinesAux false acc (l ++ '\n' :: rest) =
      (acc.reverse ++ l) :: pySplitlinesAux false [] rest := by
  induction l with
  | nil =>
    intro acc
    simp [pySplitlinesAux, isLineBreak]
  | cons c l2 ih =>
    intro acc
    have hc : isLineBreak c = false := hl c (by simp)
    rw [List.cons_append]
    simp only [pySplitlinesAux, false_and, if_false, hc, Bool.false_eq_true,
      ih (fun x hx => hl x (by simp [hx])) (c :: acc)]
    simp

theorem pySplitlinesAux_terminal {l : Str} (hl : ∀ c ∈ l, isLineBreak c = false) :
    ∀ acc, (acc ≠ [] ∨ l ≠ []) → pySplitlinesAux false acc l = [acc.reverse ++ l] := by
  induction l with
  | nil =>
    intro acc h
    rcases h with h | h
    · cases acc with
      | nil => exact absurd rfl h
      | cons x xs => simp [pySplitlinesAux]
    · exact absurd rfl h
  | cons c l2 ih =>
    intro acc _
    have hc : isLineBreak c = false := hl c (by simp)
    simp only [pySplitlinesAux, false_and, if_false, hc, Bool.false_eq_true,
      ih (fun x hx => hl x (by simp [hx])) (c :: acc) (Or.inl (by simp))]
    simp

theorem pySplitlines_append {l rest : Str} (hl : ∀ c ∈ l, isLineBreak c = false) :
    pySplitlines (l ++ '\n' :: rest) = l :: pySplitlines rest := by
  unfold pySplitlines
  rw [pySplitlinesAux_newline hl []]
  simp

theorem pySplitlines_single {l : Str} (hl : ∀ c ∈ l, isLineBreak c = false)
    (hne : l ≠ []) : pySplitlines l = [l] := by
  unfold pySplitlines
  rw [pySplitlinesAux_terminal hl [] (Or.inr hne)]
  simp

theorem pySplitFirstChar_append {k r : Str} {sep : Char} (hk : sep ∉ k) :
    pySplitFirstChar sep (k ++ sep :: r) = (k, r) := by
  induction k with
  | nil => simp [pySplitFirstChar]
  | cons c k2 ih =>
    have hcs : c ≠ sep := by
      rintro rfl
      exact hk (by simp)
    rw [List.cons_append]
    simp only [pySplitFirstChar, hcs, if_false]
    rw [ih (fun h => hk (List.mem_cons_of_mem _ h))]

theorem contains_of_mem {line : Str} {c : Char} (h : c ∈ line) :
    line.contains c = true := by
  induction line with
  | nil => simp at h
  | cons x r ih =>
    rcases List.mem_cons.1 h with rfl | h2
    · simp [List.contains_cons]
    · simp only [List.contains_cons, ih h2, Bool.or_true]

theorem dictInsert_new {m : PyDict} {k v : Str}
    (h : m.any (fun p => p.1 == k) = false) :
    dictInsert m k v = m ++ [(k, v)] := by
  simp [dictInsert, h]

/-! ### The serialized metadata block, decomposed into chunks -/

def kTITLE : Str := ['T', 'I', 'T', 'L', 'E']

def kARTIST : Str := ['A', 'R', 'T', 'I', 'S', 'T']

def kALBUM : Str := ['A', 'L', 'B', 'U', 'M']

def kYEAR : Str := ['Y', 'E', 'A', 'R']

def kTYPE : Str := ['T', 'Y', 'P', 'E']

def kAUTHOR : Str := ['A', 'U', 'T', 'H', 'O', 'R']

def kDATE : Str := ['D', 'A', 'T', 'E']

/-- A metadata line `KEY: value`. -/
def kvLine (k v : Str) : Str := k ++ ':' :: ' ' :: v

/-- The key/value lines of a metadata block, each terminated by a newline. -/
def chunksNL : List (Str × Str) → Str
  | [] => []
  | (k, v) :: rest => kvLine k v ++ '\n' :: chunksNL rest

/-- As `chunksNL` but with an arbitrary continuation, so that the serialized
block is definitionally equal to this form. -/
def chunksTail : List (Str × Str) → Str → Str
  | [], tail => tail
  | (k, v) :: rest, tail => kvLine k v ++ '\n' :: chunksTail rest tail

theorem chunksTail_eq (ps : List (Str × Str)) (tail : Str) :
    chunksTail ps tail = chunksNL ps ++ tail := by
  induction ps with
  | nil => simp [chunksTail, chunksNL]
  | cons p rest ih =>
    obtain ⟨k, v⟩ := p
    simp [chunksTail, chunksNL, ih, List.append_assoc]

theorem getLast?_keyColonSpace (k : Str) : (k ++ [':', ' ']).getLast? = some ' ' := by
  have h : k ++ [':', ' '] = (k ++ [':']) ++ [' '] := by simp
  rw [h, List.getLast?_concat]

theorem containsSub_kvLine {pat k v : Str} (hne : pat ≠ []) (hsp : ' ' ∉ pat)
    (hkey : containsSub pat (k ++ [':', ' ']) = false)
    (hv : containsSub pat v = false) :
    containsSub pat (kvLine k v) = false := by
  have hform : kvLine k v = (k ++ [':', ' ']) ++ v := by
    simp [kvLine, List.append_assoc]
  rw [hform, containsSub_append_of_last hne (getLast?_keyColonSpace k) hsp, hkey, hv]
  rfl

theorem containsSub_chunks {pat : Str} (hne : pat ≠ []) (hnl : '\n' ∉ pat)
    (hsp : ' ' ∉ pat) :
    ∀ (ps : List (Str × Str)) (z : Str),
      (∀ p ∈ ps, containsSub pat (p.1 ++ [':', ' ']) = false ∧
        containsSub pat p.2 = false) →
      containsSub pat z = false →
      containsSub pat (chunksNL ps ++ z) = false := by
  intro ps
  induction ps with
  | nil =>
    intro z _ hz
    simpa [chunksNL] using hz
  | cons p rest ih =>
    intro z hps hz
    obtain ⟨k, v⟩ := p
    have h1 : containsSub pat (k ++ [':', ' ']) = false := (hps (k, v) (by simp)).1
    have h2 : containsSub pat v = false := (hps (k, v) (by simp)).2
    have hshape : chunksNL ((k, v) :: rest) ++ z =
        (k ++ [':', ' ']) ++ (v ++ ('\n' :: (chunksNL rest ++ z))) := by
      simp [chunksNL, kvLine, List.append_assoc]
    rw [hshape,
      containsSub_append_of_last hne (getLast?_keyColonSpace k) hsp,
      containsSub_append_of_head hne (b := '\n' :: (chunksNL rest ++ z)) rfl hnl,
      h1, h2]
    have hpre : pat.isPrefixOf ('\n' :: (chunksNL rest ++ z)) = false := by
      cases pat with
      | nil => exact absurd rfl hne
      | cons q qs =>
        have hq : q ≠ '\n' := by
          rintro rfl
          exact hnl (by simp)
        simp [List.isPrefixOf, hq]
    rw [containsSub_cons, hpre, ih z (fun p hp => hps p (by simp [hp])) hz]
    rfl

theorem lineBreakFree_kvLine {k v : Str}
    (hk : ∀ c ∈ k, isLineBreak c = false) (hv : ∀ c ∈ v, isLineBreak c = false) :
    ∀ c ∈ kvLine k v, isLineBreak c = false := by
  intro c hc
  simp only [kvLine, List.mem_append, List.mem_cons] at hc
  rcases hc with h | h | h | h
  · exact hk c h
  · subst h; decide
  · subst h; decide
  · exact hv c h

theorem pySplitlines_chunks :
    ∀ (ps : List (Str × Str)) (z : Str),
      (∀ p ∈ ps, (∀ c ∈ p.1, isLineBreak c = false) ∧
        (∀ c ∈ p.2, isLineBreak c = false)) →
      (∀ c ∈ z, isLineBreak c = false) → z ≠ [] →
      pySplitlines (chunksNL ps ++ z) =
        ps.map (fun p => kvLine p.1 p.2) ++ [z] := by
  intro ps
  induction ps with
  | nil =>
    intro z _ hz hzn
    simpa [chunksNL] using pySplitlines_single hz hzn
  | cons p rest ih =>
    intro z hps hz hzn
    obtain ⟨k, v⟩ := p
    have h1 := (hps (k, v) (by simp)).1
    have h2 := (hps (k, v) (by simp)).2
    have hshape : chunksNL ((k, v) :: rest) ++ z =
        kvLine k v ++ '\n' :: (chunksNL rest ++ z) := by
      simp [chunksNL, List.append_assoc]
    rw [hshape, pySplitlines_append (lineBreakFree_kvLine h1 h2),
      ih z (fun p hp => hps p (by simp [hp])) hz hzn]
    simp

theorem metaLineStep_kv {m : PyDict} {k v : Str} (hk : ':' ∉ k)
    (hks : pyStrip k = k)
    (hvh : ∀ c, v.head? = some c → pyIsSpace c = false)
    (hvl : ∀ c, v.getLast? = some c → pyIsSpace c = false) :
    metaLineStep m (kvLine k v) = dictInsert m k v := by
  unfold metaLineStep
  have hcol : (kvLine k v).contains ':' = true :=
    contains_of_mem (by simp [kvLine])
  rw [hcol]
  have hsplit : pySplitFirstChar ':' (kvLine k v) = (k, ' ' :: v) :=
    pySplitFirstChar_append hk
  simp only [if_true, hsplit, hks, pyStrip_cons_space_good hvh hvl]

theorem metaLineStep_keyOnly {m : PyDict} {k : Str} (hk : ':' ∉ k)
    (hks : pyStrip k = k) :
    metaLineStep m (k ++ [':']) = dictInsert m k [] := by
  unfold metaLineStep
  have hcol : (k ++ [':']).contains ':' = true :=
    contains_of_mem (by simp)
  rw [hcol]
  have hsplit : pySplitFirstChar ':' (k ++ [':']) = (k, []) :=
    pySplitFirstChar_append hk
  simp only [if_true, hsplit, hks]
  rfl

theorem isPrefixOf_cons_false {pat : Str} {p : Char} {ps : Str} (hp : pat = p :: ps)
    {c : Char} (hc : p ≠ c) (X : Str) : pat.isPrefixOf (c :: X) = false := by
  subst hp
  rw [← Bool.not_eq_true, List.isPrefixOf_iff_prefix]
  rintro ⟨r, hr⟩
  rw [List.cons_append] at hr
  injection hr with h1 _
  exact hc h1

theorem foldl_metaLineStep_map {ps : List (Str × Str)} :
    ∀ m : PyDict,
      (∀ p ∈ ps, ':' ∉ p.1 ∧ pyStrip p.1 = p.1 ∧
        (∀ c, p.2.head? = some c → pyIsSpace c = false) ∧
        (∀ c, p.2.getLast? = some c → pyIsSpace c = false)) →
      List.foldl metaLineStep m (ps.map (fun p => kvLine p.1 p.2)) =
        List.foldl (fun acc p => dictInsert acc p.1 p.2) m ps := by
  induction ps with
  | nil => intro m _; rfl
  | cons p rest ih =>
    intro m hps
    obtain ⟨h1, h2, h3, h4⟩ := hps p (by simp)
    simp only [List.map_cons, List.foldl_cons]
    rw [metaLineStep_kv h1 h2 h3 h4, ih _ (fun q hq => hps q (by simp [hq]))]

/-- All strings in the list pairwise distinct (computable). -/
def distinctB : List Str → Bool
  | [] => true
  | k :: ks => (!ks.any (fun x => x == k)) && distinctB ks

theorem foldl_dictInsert_fresh {ps : List (Str × Str)} :
    ∀ m : PyDict,
      (∀ p ∈ ps, m.any (fun q => q.1 == p.1) = false) →
      distinctB (ps.map (fun p => p.1)) = true →
      List.foldl (fun acc p => dictInsert acc p.1 p.2) m ps = m ++ ps := by
  induction ps with
  | nil => intro m _ _; simp
  | cons p rest ih =>
    intro m hfresh hdist
    simp only [List.map_cons, distinctB, Bool.and_eq_true, Bool.not_eq_true',
      List.any_map] at hdist
    simp only [List.foldl_cons]
    rw [dictInsert_new (hfresh p (by simp))]
    rw [ih (m ++ [(p.1, p.2)]) ?_ ?_]
    · simp
    · intro q hq
      simp only [List.any_append, List.any_cons, List.any_nil, Bool.or_false]
      rw [hfresh q (by simp [hq])]
      have hq1 : ((q.1 : Str) == p.1) = false := by
        have h2 := List.any_eq_false.1 hdist.1 q.1 (List.mem_map_of_mem _ hq)
        simpa using h2
      have hq2 : ((p.1 : Str) == q.1) = false := by
        rw [Bool.eq_false_iff] at hq1 ⊢
        intro hcon
        apply hq1
        rw [beq_iff_eq] at hcon ⊢
        exact hcon.symm
      rw [hq2]
      rfl
    · exact hdist.2

/-- Hypotheses under which the metadata round trip holds: the value contains
neither delimiter sequence, no line-break character, and has no leading or
trailing whitespace. -/
def goodVal (v : Str) : Prop :=
  containsSub dOpen v = false ∧ containsSub dClose v = false ∧
  (∀ c ∈ v, isLineBreak c = false) ∧
  (∀ c, v.head? = some c → pyIsSpace c = false) ∧
  (∀ c, v.getLast? = some c → pyIsSpace c = false)

set_option maxHeartbeats 1000000 in
/-- Locating the first delimiter pair in the serialized block recovers its
interior exactly, provided no value contains a delimiter sequence. -/
theorem metadata_block_extract (t a al y ty au d : Str)
    (ht : goodVal t) (ha : goodVal a) (hal : goodVal al) (hy : goodVal y)
    (hty : goodVal ty) (hau : goodVal au) (hd : goodVal d) :
    (pySplit dClose
      ((pySplit dOpen (serializeMeta t a al y ty au d)).getD 1 [])).getD 0 [] =
      '\n' :: (chunksNL [(kTITLE, t), (kARTIST, a), (kALBUM, al), (kYEAR, y),
        (kTYPE, ty), (kAUTHOR, au)] ++ (kvLine kDATE d ++ ['\n'])) := by
  have l1 : ("<!--\nTITLE: ").toList = dOpen ++ ('\n' :: (kTITLE ++ [':', ' '])) := by
    decide
  have l2 : ("\nARTIST: ").toList = '\n' :: (kARTIST ++ [':', ' ']) := by decide
  have l3 : ("\nALBUM: ").toList = '\n' :: (kALBUM ++ [':', ' ']) := by decide
  have l4 : ("\nYEAR: ").toList = '\n' :: (kYEAR ++ [':', ' ']) := by decide
  have l5 : ("\nTYPE: ").toList = '\n' :: (kTYPE ++ [':', ' ']) := by decide
  have l6 : ("\nAUTHOR: ").toList = '\n' :: (kAUTHOR ++ [':', ' ']) := by decide
  have l7 : ("\nDATE: ").toList = '\n' :: (kDATE ++ [':', ' ']) := by decide
  have l8 : ("\n-->\n").toList = '\n' :: (dClose ++ ['\n']) := by decide
  have hS : serializeMeta t a al y ty au d =
      dOpen ++ ('\n' :: chunksTail
        [(kTITLE, t), (kARTIST, a), (kALBUM, al), (kYEAR, y), (kTYPE, ty),
         (kAUTHOR, au)]
        (kvLine kDATE d ++ ('\n' :: (dClose ++ ['\n'])))) := by
    simp only [serializeMeta, l1, l2, l3, l4, l5, l6, l7, l8, chunksTail, kvLine]
    simp only [List.cons_append, List.append_assoc, List.nil_append]
  -- per-pair delimiter-freeness facts for the six leading key/value lines
  have hpairsO : ∀ p ∈ [(kTITLE, t), (kARTIST, a), (kALBUM, al), (kYEAR, y),
      (kTYPE, ty), (kAUTHOR, au)],
      containsSub dOpen (p.1 ++ [':', ' ']) = false ∧
        containsSub dOpen p.2 = false := by
    intro p hp
    simp only [List.mem_cons, List.not_mem_nil, or_false] at hp
    rcases hp with rfl | rfl | rfl | rfl | rfl | rfl
    · exact ⟨show containsSub dOpen (kTITLE ++ [':', ' ']) = false from by decide, ht.1⟩
    · exact ⟨show containsSub dOpen (kARTIST ++ [':', ' ']) = false from by decide, ha.1⟩
    · exact ⟨show containsSub dOpen (kALBUM ++ [':', ' ']) = false from by decide, hal.1⟩
    · exact ⟨show containsSub dOpen (kYEAR ++ [':', ' ']) = false from by decide, hy.1⟩
    · exact ⟨show containsSub dOpen (kTYPE ++ [':', ' ']) = false from by decide, hty.1⟩
    · exact ⟨show containsSub dOpen (kAUTHOR ++ [':', ' ']) = false from by decide, hau.1⟩
  have hpairsC : ∀ p ∈ [(kTITLE, t), (kARTIST, a), (kALBUM, al), (kYEAR, y),
      (kTYPE, ty), (kAUTHOR, au)],
      containsSub dClose (p.1 ++ [':', ' ']) = false ∧
        containsSub dClose p.2 = false := by
    intro p hp
    simp only [List.mem_cons, List.not_mem_nil, or_false] at hp
    rcases hp with rfl | rfl | rfl | rfl | rfl | rfl
    · exact ⟨show containsSub dClose (kTITLE ++ [':', ' ']) = false from by decide, ht.2.1⟩
    · exact ⟨show containsSub dClose (kARTIST ++ [':', ' ']) = false from by decide, ha.2.1⟩
    · exact ⟨show containsSub dClose (kALBUM ++ [':', ' ']) = false from by decide, hal.2.1⟩
    · exact ⟨show containsSub dClose (kYEAR ++ [':', ' ']) = false from by decide, hy.2.1⟩
    · exact ⟨show containsSub dClose (kTYPE ++ [':', ' ']) = false from by decide, hty.2.1⟩
    · exact ⟨show containsSub dClose (kAUTHOR ++ [':', ' ']) = false from by decide, hau.2.1⟩
  -- "<!--" does not occur after the opening delimiter
  have hIopen : containsSub dOpen
      (chunksNL [(kTITLE, t), (kARTIST, a), (kALBUM, al), (kYEAR, y), (kTYPE, ty),
        (kAUTHOR, au)] ++
        (kvLine kDATE d ++ ('\n' :: (dClose ++ ['\n'])))) = false := by
    apply containsSub_chunks (by decide) (by decide) (by decide) _ _ hpairsO
    have hform : kvLine kDATE d ++ ('\n' :: (dClose ++ ['\n'])) =
        (kDATE ++ [':', ' ']) ++ (d ++ ('\n' :: (dClose ++ ['\n']))) := by
      simp only [kvLine, List.cons_append, List.append_assoc, List.nil_append]
    rw [hform,
      containsSub_append_of_last (by decide) (getLast?_keyColonSpace kDATE) (by decide),
      containsSub_append_of_head (by decide) (b := '\n' :: (dClose ++ ['\n'])) rfl
        (by decide),
      hd.1,
      show containsSub dOpen (kDATE ++ [':', ' ']) = false from by decide,
      show containsSub dOpen ('\n' :: (dClose ++ ['\n'])) = false from by decide]
    rfl
  -- "-->" does not occur strictly between the delimiters
  have hIclose : containsSub dClose
      (chunksNL [(kTITLE, t), (kARTIST, a), (kALBUM, al), (kYEAR, y), (kTYPE, ty),
        (kAUTHOR, au)] ++
        (kvLine kDATE d ++ ['\n'])) = false := by
    apply containsSub_chunks (by decide) (by decide) (by decide) _ _ hpairsC
    have hform : kvLine kDATE d ++ ['\n'] =
        (kDATE ++ [':', ' ']) ++ (d ++ ['\n']) := by
      simp only [kvLine, List.cons_append, List.append_assoc, List.nil_append]
    rw [hform,
      containsSub_append_of_last (by decide) (getLast?_keyColonSpace kDATE) (by decide),
      containsSub_append_of_head (by decide) (b := ['\n']) rfl (by decide),
      hd.2.1,
      show containsSub dClose (kDATE ++ [':', ' ']) = false from by decide,
      show containsSub dClose (['\n'] : Str) = false from by decide]
    rfl
  -- step 1 and 2: extracting the interior of the delimiter pair
  have hRopen : containsSub dOpen ('\n' :: chunksTail
      [(kTITLE, t), (kARTIST, a), (kALBUM, al), (kYEAR, y), (kTYPE, ty),
       (kAUTHOR, au)]
      (kvLine kDATE d ++ ('\n' :: (dClose ++ ['\n'])))) = false := by
    rw [containsSub_cons, isPrefixOf_cons_false (rfl :
      dOpen = '<' :: ['!', '-', '-']) (by decide) _, chunksTail_eq, hIopen]
    rfl
  have hstep1 : (pySplit dOpen (serializeMeta t a al y ty au d)).getD 1 [] =
      '\n' :: chunksTail
        [(kTITLE, t), (kARTIST, a), (kALBUM, al), (kYEAR, y), (kTYPE, ty),
         (kAUTHOR, au)]
        (kvLine kDATE d ++ ('\n' :: (dClose ++ ['\n']))) := by
    rw [hS]
    have e1 := pySplit_append (a := []) (b := '\n' :: chunksTail
      [(kTITLE, t), (kARTIST, a), (kALBUM, al), (kYEAR, y), (kTYPE, ty),
       (kAUTHOR, au)]
      (kvLine kDATE d ++ ('\n' :: (dClose ++ ['\n']))))
      (show dOpen ≠ [] from by decide) (containsSub_nil (by decide))
      (by intro c hc; simp at hc)
    rw [List.nil_append] at e1
    rw [e1, pySplit_no_occ hRopen]
    rfl
  have hR2 : ('\n' :: chunksTail
      [(kTITLE, t), (kARTIST, a), (kALBUM, al), (kYEAR, y), (kTYPE, ty),
       (kAUTHOR, au)]
      (kvLine kDATE d ++ ('\n' :: (dClose ++ ['\n'])))) =
      ('\n' :: (chunksNL [(kTITLE, t), (kARTIST, a), (kALBUM, al), (kYEAR, y),
        (kTYPE, ty), (kAUTHOR, au)] ++ (kvLine kDATE d ++ ['\n']))) ++
        (dClose ++ ['\n']) := by
    rw [chunksTail_eq]
    simp only [kvLine, List.cons_append, List.append_assoc, List.nil_append]
  have hCI : containsSub dClose ('\n' :: (chunksNL [(kTITLE, t), (kARTIST, a),
      (kALBUM, al), (kYEAR, y), (kTYPE, ty), (kAUTHOR, au)] ++
      (kvLine kDATE d ++ ['\n']))) = false := by
    rw [containsSub_cons, isPrefixOf_cons_false (rfl :
      dClose = '-' :: ['-', '>']) (by decide) _, hIclose]
    rfl
  have hlastI : ∀ c, ('\n' :: (chunksNL [(kTITLE, t), (kARTIST, a), (kALBUM, al),
      (kYEAR, y), (kTYPE, ty), (kAUTHOR, au)] ++
      (kvLine kDATE d ++ ['\n']))).getLast? = some c → c ∉ dClose := by
    intro c hc
    have hf : ('\n' :: (chunksNL [(kTITLE, t), (kARTIST, a), (kALBUM, al),
        (kYEAR, y), (kTYPE, ty), (kAUTHOR, au)] ++
        (kvLine kDATE d ++ ['\n']))) =
        ('\n' :: (chunksNL [(kTITLE, t), (kARTIST, a), (kALBUM, al), (kYEAR, y),
          (kTYPE, ty), (kAUTHOR, au)] ++ kvLine kDATE d)) ++ ['\n'] := by
      simp only [kvLine, List.cons_append, List.append_assoc, List.nil_append]
    rw [hf, List.getLast?_concat] at hc
    have : c = '\n' := (Option.some.inj hc).symm
    subst this
    decide
  rw [hstep1, hR2, pySplit_append (by decide) hCI hlastI]
  rfl
set_option maxHeartbeats 1000000 in
theorem metadata_roundtrip_core (t a al y ty au d : Str)
    (ht : goodVal t) (ha : goodVal a) (hal : goodVal al) (hy : goodVal y)
    (hty : goodVal ty) (hau : goodVal au) (hd : goodVal d) :
    scanMetaDict (serializeMeta t a al y ty au d) =
      [(kTITLE, t), (kARTIST, a), (kALBUM, al), (kYEAR, y), (kTYPE, ty),
       (kAUTHOR, au), (kDATE, d)] := by
  have hblock := metadata_block_extract t a al y ty au d ht ha hal hy hty hau hd
  -- the six leading lines are well-behaved
  have hlb6 : ∀ p ∈ [(kTITLE, t), (kARTIST, a), (kALBUM, al), (kYEAR, y),
      (kTYPE, ty), (kAUTHOR, au)],
      (∀ c ∈ p.1, isLineBreak c = false) ∧ (∀ c ∈ p.2, isLineBreak c = false) := by
    intro p hp
    simp only [List.mem_cons, List.not_mem_nil, or_false] at hp
    rcases hp with rfl | rfl | rfl | rfl | rfl | rfl
    · exact ⟨show ∀ c ∈ kTITLE, isLineBreak c = false from by decide, ht.2.2.1⟩
    · exact ⟨show ∀ c ∈ kARTIST, isLineBreak c = false from by decide, ha.2.2.1⟩
    · exact ⟨show ∀ c ∈ kALBUM, isLineBreak c = false from by decide, hal.2.2.1⟩
    · exact ⟨show ∀ c ∈ kYEAR, isLineBreak c = false from by decide, hy.2.2.1⟩
    · exact ⟨show ∀ c ∈ kTYPE, isLineBreak c = false from by decide, hty.2.2.1⟩
    · exact ⟨show ∀ c ∈ kAUTHOR, isLineBreak c = false from by decide, hau.2.2.1⟩
  have hgood6 : ∀ p ∈ [(kTITLE, t), (kARTIST, a), (kALBUM, al), (kYEAR, y),
      (kTYPE, ty), (kAUTHOR, au)],
      ':' ∉ p.1 ∧ pyStrip p.1 = p.1 ∧
        (∀ c, p.2.head? = some c → pyIsSpace c = false) ∧
        (∀ c, p.2.getLast? = some c → pyIsSpace c = false) := by
    intro p hp
    simp only [List.mem_cons, List.not_mem_nil, or_false] at hp
    rcases hp with rfl | rfl | rfl | rfl | rfl | rfl
    · exact ⟨show ':' ∉ kTITLE from by decide,
        show pyStrip kTITLE = kTITLE from by decide, ht.2.2.2.1, ht.2.2.2.2⟩
    · exact ⟨show ':' ∉ kARTIST from by decide,
        show pyStrip kARTIST = kARTIST from by decide, ha.2.2.2.1, ha.2.2.2.2⟩
    · exact ⟨show ':' ∉ kALBUM from by decide,
        show pyStrip kALBUM = kALBUM from by decide, hal.2.2.2.1, hal.2.2.2.2⟩
    · exact ⟨show ':' ∉ kYEAR from by decide,
        show pyStrip kYEAR = kYEAR from by decide, hy.2.2.2.1, hy.2.2.2.2⟩
    · exact ⟨show ':' ∉ kTYPE from by decide,
        show pyStrip kTYPE = kTYPE from by decide, hty.2.2.2.1, hty.2.2.2.2⟩
    · exact ⟨show ':' ∉ kAUTHOR from by decide,
        show pyStrip kAUTHOR = kAUTHOR from by decide, hau.2.2.2.1, hau.2.2.2.2⟩
  -- unfold the scanner and strip the interior
  show (pySplitlines (pyStrip ((pySplit dClose
      ((pySplit dOpen (serializeMeta t a al y ty au d)).getD 1 [])).getD 0 []))).foldl
      metaLineStep [] = _
  rw [hblock]
  rcases List.eq_nil_or_concat d with rfl | ⟨d2, cl, rfl⟩
  · -- DATE value empty: the trailing "DATE: " line is stripped to "DATE:"
    have hstrip : pyStrip ('\n' :: (chunksNL [(kTITLE, t), (kARTIST, a),
        (kALBUM, al), (kYEAR, y), (kTYPE, ty), (kAUTHOR, au)] ++
        (kvLine kDATE [] ++ ['\n']))) =
        chunksNL [(kTITLE, t), (kARTIST, a), (kALBUM, al), (kYEAR, y),
          (kTYPE, ty), (kAUTHOR, au)] ++ (kDATE ++ [':']) := by
      unfold pyStrip
      rw [pyStripLeft_cons_space (by decide)]
      have hhd : ∀ c, (chunksNL [(kTITLE, t), (kARTIST, a), (kALBUM, al),
          (kYEAR, y), (kTYPE, ty), (kAUTHOR, au)] ++
          (kvLine kDATE [] ++ ['\n'])).head? = some c → pyIsSpace c = false := by
        intro c hc
        have hT : (chunksNL [(kTITLE, t), (kARTIST, a), (kALBUM, al),
            (kYEAR, y), (kTYPE, ty), (kAUTHOR, au)] ++
            (kvLine kDATE [] ++ ['\n'])).head? = some 'T' := rfl
        rw [hT] at hc
        have : c = 'T' := (Option.some.inj hc).symm
        subst this
        decide
      rw [pyStripLeft_eq_self hhd]
      have hf : chunksNL [(kTITLE, t), (kARTIST, a), (kALBUM, al), (kYEAR, y),
          (kTYPE, ty), (kAUTHOR, au)] ++ (kvLine kDATE [] ++ ['\n']) =
          (((chunksNL [(kTITLE, t), (kARTIST, a), (kALBUM, al), (kYEAR, y),
            (kTYPE, ty), (kAUTHOR, au)] ++ (kDATE ++ [':'])) ++ [' ']) ++ ['\n']) := by
        simp only [kvLine, List.cons_append, List.append_assoc, List.nil_append]
      rw [hf, pyStripRight_append_space (by decide),
        pyStripRight_append_space (by decide)]
      apply pyStripRight_eq_self
      intro c hc
      rw [show chunksNL [(kTITLE, t), (kARTIST, a), (kALBUM, al), (kYEAR, y),
        (kTYPE, ty), (kAUTHOR, au)] ++ (kDATE ++ [':']) =
        (chunksNL [(kTITLE, t), (kARTIST, a), (kALBUM, al), (kYEAR, y),
          (kTYPE, ty), (kAUTHOR, au)] ++ kDATE) ++ [':'] from by
            simp only [kvLine, List.cons_append, List.append_assoc, List.nil_append],
        List.getLast?_concat] at hc
      have : c = ':' := (Option.some.inj hc).symm
      subst this
      decide
    have hzlb : ∀ c ∈ kDATE ++ [':'], isLineBreak c = false := by decide
    rw [hstrip, pySplitlines_chunks _ _ hlb6 hzlb (by simp)]
    have hdist : distinctB (([(kTITLE, t), (kARTIST, a), (kALBUM, al),
        (kYEAR, y), (kTYPE, ty), (kAUTHOR, au)]).map (fun p => p.1)) = true := by
      show distinctB [kTITLE, kARTIST, kALBUM, kYEAR, kTYPE, kAUTHOR] = true
      decide
    rw [List.foldl_append, foldl_metaLineStep_map [] hgood6,
      foldl_dictInsert_fresh [] (by intro p _; rfl) hdist]
    simp only [List.foldl_cons, List.foldl_nil, List.nil_append]
    rw [metaLineStep_keyOnly (show ':' ∉ kDATE from by decide)
      (show pyStrip kDATE = kDATE from by decide),
      dictInsert_new (show ([(kTITLE, t), (kARTIST, a), (kALBUM, al), (kYEAR, y),
        (kTYPE, ty), (kAUTHOR, au)].any (fun p => p.1 == kDATE)) = false from by
          show ([kTITLE, kARTIST, kALBUM, kYEAR, kTYPE,
            kAUTHOR].any (fun x => x == kDATE)) = false
          decide)]
    rfl
  · -- DATE value non-empty: its last character is not whitespace
    simp only [List.concat_eq_append] at hblock hd ⊢
    have hcl : pyIsSpace cl = false := hd.2.2.2.2 cl (by simp)
    have hstrip : pyStrip ('\n' :: (chunksNL [(kTITLE, t), (kARTIST, a),
        (kALBUM, al), (kYEAR, y), (kTYPE, ty), (kAUTHOR, au)] ++
        (kvLine kDATE (d2 ++ [cl]) ++ ['\n']))) =
        chunksNL [(kTITLE, t), (kARTIST, a), (kALBUM, al), (kYEAR, y),
          (kTYPE, ty), (kAUTHOR, au)] ++ kvLine kDATE (d2 ++ [cl]) := by
      unfold pyStrip
      rw [pyStripLeft_cons_space (by decide)]
      have hhd : ∀ c, (chunksNL [(kTITLE, t), (kARTIST, a), (kALBUM, al),
          (kYEAR, y), (kTYPE, ty), (kAUTHOR, au)] ++
          (kvLine kDATE (d2 ++ [cl]) ++ ['\n'])).head? = some c →
          pyIsSpace c = false := by
        intro c hc
        have hT : (chunksNL [(kTITLE, t), (kARTIST, a), (kALBUM, al),
            (kYEAR, y), (kTYPE, ty), (kAUTHOR, au)] ++
            (kvLine kDATE (d2 ++ [cl]) ++ ['\n'])).head? = some 'T' := rfl
        rw [hT] at hc
        have : c = 'T' := (Option.some.inj hc).symm
        subst this
        decide
      rw [pyStripLeft_eq_self hhd]
      have hf : chunksNL [(kTITLE, t), (kARTIST, a), (kALBUM, al), (kYEAR, y),
          (kTYPE, ty), (kAUTHOR, au)] ++ (kvLine kDATE (d2 ++ [cl]) ++ ['\n']) =
          ((chunksNL [(kTITLE, t), (kARTIST, a), (kALBUM, al), (kYEAR, y),
            (kTYPE, ty), (kAUTHOR, au)] ++ kvLine kDATE (d2 ++ [cl])) ++ ['\n']) := by
        simp only [kvLine, List.cons_append, List.append_assoc, List.nil_append]
      rw [hf, pyStripRight_append_space (by decide)]
      apply pyStripRight_eq_self
      intro c hc
      rw [show chunksNL [(kTITLE, t), (kARTIST, a), (kALBUM, al), (kYEAR, y),
        (kTYPE, ty), (kAUTHOR, au)] ++ kvLine kDATE (d2 ++ [cl]) =
        ((chunksNL [(kTITLE, t), (kARTIST, a), (kALBUM, al), (kYEAR, y),
          (kTYPE, ty), (kAUTHOR, au)] ++ (kDATE ++ (':' :: (' ' :: d2)))) ++ [cl])
        from by simp only [kvLine, List.cons_append, List.append_assoc, List.nil_append], List.getLast?_concat] at hc
      have : c = cl := (Option.some.inj hc).symm
      subst this
      exact hcl
    rw [hstrip, pySplitlines_chunks _ _ hlb6
      (lineBreakFree_kvLine (show ∀ c ∈ kDATE, isLineBreak c = false from by decide)
        hd.2.2.1)
      (by simp [kvLine])]
    have hdist : distinctB (([(kTITLE, t), (kARTIST, a), (kALBUM, al),
        (kYEAR, y), (kTYPE, ty), (kAUTHOR, au)]).map (fun p => p.1)) = true := by
      show distinctB [kTITLE, kARTIST, kALBUM, kYEAR, kTYPE, kAUTHOR] = true
      decide
    rw [List.foldl_append, foldl_metaLineStep_map [] hgood6,
      foldl_dictInsert_fresh [] (by intro p _; rfl) hdist]
    simp only [List.foldl_cons, List.foldl_nil, List.nil_append]
    rw [metaLineStep_kv (show ':' ∉ kDATE from by decide)
      (show pyStrip kDATE = kDATE from by decide) hd.2.2.2.1 hd.2.2.2.2,
      dictInsert_new (show ([(kTITLE, t), (kARTIST, a), (kALBUM, al), (kYEAR, y),
        (kTYPE, ty), (kAUTHOR, au)].any (fun p => p.1 == kDATE)) = false from by
          show ([kTITLE, kARTIST, kALBUM, kYEAR, kTYPE,
            kAUTHOR].any (fun x => x == kDATE)) = false
          decide)]
    rfl

/-- Computable form of `goodVal`, so that concrete instances can be checked
with `decide`. -/
def goodValB (v : Str) : Bool :=
  !containsSub dOpen v && !containsSub dClose v &&
  v.all (fun c => !isLineBreak c) &&
  (match v.head? with | some c => !pyIsSpace c | none => true) &&
  (match v.getLast? with | some c => !pyIsSpace c | none => true)

theorem goodVal_of_b {v : Str} (h : goodValB v = true) : goodVal v := by
  unfold goodValB at h
  simp only [Bool.and_eq_true, Bool.not_eq_true'] at h
  obtain ⟨⟨⟨⟨h1, h2⟩, h3⟩, h4⟩, h5⟩ := h
  refine ⟨h1, h2, ?_, ?_, ?_⟩
  · intro c hc
    have := List.all_eq_true.1 h3 c hc
    simpa using this
  · intro c hc
    rw [hc] at h4
    simpa using h4
  · intro c hc
    rw [hc] at h5
    simpa using h5

/-! ### File-system model and the document store scanner

The file system is a list of (path, contents) pairs; a path is the list of
its segments relative to the script directory (`SCRIPT_DIR`), so a document
in the content store has a path of the form
`["Content", type, year, month, name]`.  `CONTENT_DIR.rglob("*.html")`
enumerates the files below `Content/` whose name ends in `.html`, in file
order; read errors (caught and skipped by the program) are not modelled --
every file in the model can be read. -/

abbrev FPath := List Str

abbrev FS := List (FPath × Str)

/-- The `Content` path segment (the content store root directory name). -/
def segContent : Str := ['C', 'o', 'n', 't', 'e', 'n', 't']

/-- The `.html` document extension. -/
def htmlExt : Str := ['.', 'h', 't', 'm', 'l']

def endsWith (suf s : Str) : Bool := suf.reverse.isPrefixOf s.reverse

/-- Does `CONTENT_DIR.rglob("*.html")` yield this path: strictly below
`Content/`, with a name ending in `.html`. -/
def isContentHtml (p : FPath) : Bool :=
  match p with
  | [] => false
  | s0 :: rest =>
    s0 == segContent && !rest.isEmpty &&
      (match p.getLast? with
       | some name => endsWith htmlExt name
       | none => false)

def scanFiles (fs : FS) : List (FPath × Str) :=
  fs.filter (fun f => isContentHtml f.1)

/-- `"/".join(segments)`: `relative_to(SCRIPT_DIR)` rendered with forward
slashes (`as_posix()` in `update_archive`, `str(...).replace("\\\\", "/")` in
`update_recent` and `publish_review` -- identical results). -/
def joinSlash (p : FPath) : Str := List.intercalate ['/'] p

/-- The default `"General"` review type. -/
def sGeneral : Str := ['G', 'e', 'n', 'e', 'r', 'a', 'l']

/-- An entry of the `update_archive` scan loop (rat.py lines 202-209). -/
structure AEntry where
  path : Str
  rtype : Str
  artist : Str
  album : Str
  year : Str
  date : PDate
deriving DecidableEq

/-- One iteration of the `update_archive` scan loop (lines 183-209): skip the
file unless it contains `<!--`, parse the metadata dict, skip unless `DATE`
is present and parses as `%Y-%m-%d`, and emit the entry record. -/
def parseArchiveEntry (p : FPath) (text : Str) : Option AEntry :=
  if containsSub dOpen text = false then none
  else
    let meta := scanMetaDict text
    if dictContains meta kDATE = false then none
    else
      match parsePyDate (dictGetD meta kDATE []) with
      | none => none
      | some dt =>
        some { path := joinSlash p
               rtype := dictGetD meta kTYPE sGeneral
               artist := dictGetD meta kARTIST []
               album := dictGetD meta kALBUM []
               year := dictGetD meta kYEAR []
               date := dt }

def archiveEntries (fs : FS) : List AEntry :=
  (scanFiles fs).filterMap (fun f => parseArchiveEntry f.1 f.2)

/-- Decimal rendering of a natural number (`str(n)` / `f"{n}"`). -/
def natDec (n : Nat) : Str := Nat.toDigits 10 n

/-- The human date `f"{day}.{month}.{year}"` of the Recent feed (no
zero-padding). -/
def dateStrDMY (d : PDate) : Str :=
  natDec d.d ++ '.' :: (natDec d.m ++ '.' :: natDec d.y)

/-- An entry of the `update_recent` scan loop (rat.py lines 297-305). -/
structure REntry where
  href : Str
  rtype : Str
  date : PDate
  dateStr : Str
  author : Str
  bold : Str
  linkTitle : Str
deriving DecidableEq

/-- One iteration of the `update_recent` scan loop (lines 277-305): as the
archive loop, but additionally requiring the `ALBUM` key to be present, and
emitting an absolute (`/`-prefixed) link. -/
def parseRecentEntry (p : FPath) (text : Str) : Option REntry :=
  if containsSub dOpen text = false then none
  else
    let meta := scanMetaDict text
    if dictContains meta kDATE = false ∨ dictContains meta kALBUM = false then none
    else
      match parsePyDate (dictGetD meta kDATE []) with
      | none => none
      | some dt =>
        some { href := '/' :: joinSlash p
               rtype := dictGetD meta kTYPE sGeneral
               date := dt
               dateStr := dateStrDMY dt
               author := dictGetD meta kAUTHOR []
               bold := dictGetD meta kALBUM [] ++ (" - ").toList ++
                 dictGetD meta kARTIST [] ++ (" (").toList ++
                 dictGetD meta kYEAR [] ++ (")").toList
               linkTitle := dictGetD meta kTITLE [] }

def recentEntries (fs : FS) : List REntry :=
  (scanFiles fs).filterMap (fun f => parseRecentEntry f.1 f.2)

/-! ### Stable descending sort

`entries.sort(key=lambda x: x["date"], reverse=True)` is a stable sort:
the result is the unique permutation that is non-increasing on the key and
keeps elements with equal keys in their original order.  `sortRevBy le` is
insertion sort placing each element (processed from the right) before the
first element `y` with `le y x`, which satisfies exactly these three
properties (permutation, non-increasing, stable; proved below). -/

def insertRevBy {α : Type} (le : α → α → Bool) (x : α) : List α → List α
  | [] => [x]
  | y :: ys => if le y x then x :: y :: ys else y :: insertRevBy le x ys

def sortRevBy {α : Type} (le : α → α → Bool) : List α → List α
  | [] => []
  | x :: xs => insertRevBy le x (sortRevBy le xs)

/-- `MAX_RECENT = 13`: how many entries to keep before dropping the oldest. -/
def MAX_RECENT : Nat := 13

def rentryLe (x y : REntry) : Bool := PDate.leB x.date y.date

def aentryLe (x y : AEntry) : Bool := PDate.leB x.date y.date

/-- The entries rendered by the Recent feed: sort newest first, keep only
`MAX_RECENT` (lines 307-309). -/
def recentShown (fs : FS) : List REntry :=
  (sortRevBy rentryLe (recentEntries fs)).take MAX_RECENT

/-! ### Archive grouping

`grouped.setdefault(y, {}).setdefault(m, []).append(e)` over an
insertion-ordered dict of dicts, modelled as nested association lists. -/

abbrev MonthGroups := List (Nat × List AEntry)

abbrev YearGroups := List (Nat × MonthGroups)

def monthAdd (months : MonthGroups) (m : Nat) (e : AEntry) : MonthGroups :=
  if months.any (fun q => q.1 == m) then
    months.map (fun q => if q.1 == m then (q.1, q.2 ++ [e]) else q)
  else months ++ [(m, [e])]

def yearAdd (g : YearGroups) (e : AEntry) : YearGroups :=
  if g.any (fun q => q.1 == e.date.y) then
    g.map (fun q => if q.1 == e.date.y then (q.1, monthAdd q.2 e.date.m e) else q)
  else g ++ [(e.date.y, monthAdd [] e.date.m e)]

def archiveGrouped (es : List AEntry) : YearGroups := es.foldl yearAdd []

def lookupG (g : YearGroups) (y : Nat) : MonthGroups :=
  match g.find? (fun q => q.1 == y) with
  | some q => q.2
  | none => []

def lookupM (months : MonthGroups) (m : Nat) : List AEntry :=
  match months.find? (fun q => q.1 == m) with
  | some q => q.2
  | none => []

/-- `sorted(keys, reverse=True)`. -/
def sortKeysDesc (ks : List Nat) : List Nat := sortRevBy Nat.ble ks

/-- The year/month/entry structure in exactly the order the archive loop
renders it (lines 211-232): entries sorted by date descending (stable), then
grouped, then years and months each visited in descending key order. -/
def archivePlan (es : List AEntry) : List (Nat × List (Nat × List AEntry)) :=
  let sorted := sortRevBy aentryLe es
  let g := archiveGrouped sorted
  (sortKeysDesc (g.map (fun q => q.1))).map (fun y =>
    let months := lookupG g y
    (y, (sortKeysDesc (months.map (fun q => q.1))).map (fun m =>
      (m, lookupM months m))))

/-- `calendar.month_name`: index 0 is the empty string. -/
def monthNames : List Str :=
  [[], ("January").toList, ("February").toList, ("March").toList,
   ("April").toList, ("May").toList, ("June").toList, ("July").toList,
   ("August").toList, ("September").toList, ("October").toList,
   ("November").toList, ("December").toList]

def monthName (m : Nat) : Str := monthNames.getD m []

def archiveLi (e : AEntry) : Str :=
  ("<li><a class=\"list\" href=\"").toList ++ e.path ++
  ("\">[<span style=\"color:#02ab6d;\">").toList ++ e.rtype ++
  ("</span>] <i>").toList ++ e.album ++ (" - ").toList ++ e.artist ++
  ("</i> (").toList ++ e.year ++ (")</a></li>\n").toList

def archiveMonthBlock (mg : Nat × List AEntry) : Str :=
  ("<h3 style=\"padding: 0 4%\">").toList ++ monthName mg.1 ++
  ("</h3>\n<ul class=\"a\">\n").toList ++
  (mg.2.foldl (fun acc e => acc ++ archiveLi e) []) ++ ("</ul>\n").toList

def archiveYearBlock (yg : Nat × List (Nat × List AEntry)) : Str :=
  ("\n<h2>").toList ++ natDec yg.1 ++ ("</h2>\n").toList ++
  (yg.2.foldl (fun acc mg => acc ++ archiveMonthBlock mg) [])

/-- `archive_body` accumulated by the nested loops of lines 220-232. -/
def archiveBody (es : List AEntry) : Str :=
  (archivePlan es).foldl (fun acc yg => acc ++ archiveYearBlock yg) []

def archSeg0 : Str := ("<!DOCTYPE html>\n<html>\n<head>\n  <link rel=\"icon\" type=\"image/x-icon\" href=\"favicon.ico\">\n  <link rel=\"shortcut icon\" href=\"favicon.ico\">\n  <meta name=\"viewport\" content=\"width=device-width, initial-scale=1\">\n  <link rel=\"stylesheet\" href=\"rat.css\">\n  <title>Rat Reviews ⊚ Archive</title>\n  <link href=\x27https://fonts.googleapis.com/css2?family=Bebas+Neue&family=Blaka&family=DotGothic16&family=Abhaya+Libre&display=swap\x27 rel=\x27stylesheet\x27>\n  <style>\n    ul.a \x7b list-style-type: circle; padding: 0 8%; \x7d\n    .list \x7b color: black; font-size: 1em; text-decoration: none; \x7d\n  </style>\n</head>\n<body class=\"bkg\">\n<div class=\"topnav\">\n  <a class=\"active\" href=\"https://rat.reviews/Recent\">Reviews</a>\n  <a href=\"https://rat.reviews/About\">About</a>\n  <a href=\"https://rat.reviews/Contact\">Contact</a>\n  <a href=\"https://rat.reviews\" class=\"split\">Home</a>\n</div>\n<div class=\"prg\" style=\"font-size:1em; text-align:left;\">\n").toList

def archSeg1 : Str := ("\n</div>\n<footer><div class=\"footer\"><p>&copy; Copyright ").toList

def archSeg2 : Str := (", Rat Reviews</p></div></footer>\n</body>\n</html>\n").toList

/-- The full Archive page (`full_archive`, lines 234-261). -/
def archivePage (fs : FS) (today : PDate) : Str :=
  archSeg0 ++ archiveBody (archiveEntries fs) ++ archSeg1 ++
  natDec today.y ++ archSeg2

def renderRecentEntry (e : REntry) : Str :=
  ("  <a class=\"link\" href=\"").toList ++ e.href ++
  ("\">\n    <i style=\"font-size: 0.7em;\">").toList ++ e.rtype ++
  (" | ").toList ++ e.dateStr ++ (" | ").toList ++ e.author ++
  ("<br>\n    <b>").toList ++ e.bold ++ ("</b></i> <br>\n    ").toList ++
  e.linkTitle ++ ("</a>\n").toList

def recSeg0 : Str := ("<!DOCTYPE html>\n<html>\n<head>\n  <link rel=\"icon\" type=\"image/x-icon\" href=\"favicon.ico\">\n  <link rel=\"shortcut icon\" href=\"favicon.ico\">\n  <link rel=\"stylesheet\" href=\"rat.css\">\n  <meta name=\"viewport\" content=\"width=device-width, initial-scale=1\">\n  <title>Rat Reviews</title>\n  <link href=\x27https://fonts.googleapis.com/css?family=Blaka|DotGothic16|Abhaya+Libre\x27 rel=\x27stylesheet\x27>\n</head>\n<body class=\"bkg\">\n\n<div class=\"topnav\">\n  <a href=\"https://rat.reviews/Archive\">Archive</a>\n  <a href=\"https://rat.reviews/About\">About</a>\n  <a href=\"https://rat.reviews/Contact\">Contact</a>\n  <a href=\"https://rat.reviews\" class=\"split\">Home</a>\n</div>\n\n<p class=\"prg\">\n\n").toList

def recSeg1 : Str := ("\n</p>\n\n</body>\n<footer><div class=\"footer\">\n  <p>&copy; Copyright ").toList

def recSeg2 : Str := (", Rat Reviews</p>\n</div></footer>\n</html>\n").toList

/-- The full Recent page (`full_html` of `update_recent`, lines 320-351):
`entries_html = "\n".join(render_entry(e) for e in entries)` over the shown
entries. -/
def recentPage (fs : FS) (today : PDate) : Str :=
  recSeg0 ++ List.intercalate ['\n'] ((recentShown fs).map renderRecentEntry) ++
  recSeg1 ++ natDec today.y ++ recSeg2

/-- Writing a file: create-or-overwrite at its path, keeping file order for an
existing path. -/
def fsWrite (fs : FS) (p : FPath) (c : Str) : FS :=
  if fs.any (fun f => f.1 == p) then
    fs.map (fun f => if f.1 == p then (p, c) else f)
  else fs ++ [(p, c)]

/-- `update_archive`: write the rebuilt Archive page at
`SCRIPT_DIR / "Archive.html"`. -/
def runUpdateArchive (fs : FS) (today : PDate) : FS :=
  fsWrite fs [("Archive.html").toList] (archivePage fs today)

/-- `update_recent`: write the rebuilt Recent page at
`SCRIPT_DIR / "Recent.html"`.  (Its eight parameters are unused by the
rendering -- the entries come solely from re-scanning the store.) -/
def runUpdateRecent (fs : FS) (today : PDate) : FS :=
  fsWrite fs [("Recent.html").toList] (recentPage fs today)

/-! ### The publish pipeline (`publish_review`, lines 93-169) -/

/-- The raw form fields as collected by the input layer (before the
`.strip()` calls at the top of `publish_review`). -/
structure Submission where
  title : Str
  artist : Str
  album : Str
  releaseYear : Str
  rtype : Str
  author : Str
  content : Str
  overrideDate : Option Str
deriving DecidableEq

/-- The observable mutations performed by a publish run, in program order. -/
inductive Effect where
  | mkdirE (p : FPath)
  | writeE (p : FPath) (contents : Str)
  | copyAsset (name : Str)
  | archiveRebuilt
  | recentRebuilt
deriving DecidableEq

inductive POutcome where
  | ok
  | errValidation
  | errDate
  | raisedCopy (assetName : Str)
deriving DecidableEq

/-- Python regex `\w` (word character), modelled on its ASCII fragment
(letters, digits, underscore); `re.sub` in the program runs in Unicode mode,
whose extra word characters are not exercised by any claim here. -/
def isWordChar (c : Char) : Bool := c.isAlpha || c.isDigit || c = '_'

/-- `re.sub(r'[^\w\-]', '_', s)`: each character outside word
characters/hyphen becomes an underscore. -/
def reSubToUnderscore (s : Str) : Str :=
  s.map (fun c => if isWordChar c || c = '-' then c else '_')

/-- `re.sub(r'[^\w\-]', '', s)`: each character outside word
characters/hyphen is removed. -/
def reSubDelete (s : Str) : Str :=
  s.filter (fun c => isWordChar c || c = '-')

/-- A directory entry of `SCRIPT_DIR.iterdir()`. -/
structure AssetItem where
  name : Str
  isFile : Bool
deriving DecidableEq

/-- `pathlib.PurePath.suffix` of a file name: the final `.ext` when the last
dot is neither the first nor the last character, else empty. -/
def pySuffix (name : Str) : Str :=
  match splitOnce? ['.'] name.reverse with
  | some pr => if pr.2 = [] ∨ pr.1 = [] then [] else '.' :: pr.1.reverse
  | none => []

/-- Python `str.lower()` (ASCII model; the asset extensions are ASCII). -/
def lowerStr (s : Str) : Str := s.map Char.toLower

def ASSET_EXTENSIONS : List Str :=
  [(".css").toList, (".ico").toList, (".jpg").toList, (".jpeg").toList,
   (".png").toList, (".gif").toList, (".webp").toList, (".svg").toList]

def isAssetFile (it : AssetItem) : Bool :=
  it.isFile && ASSET_EXTENSIONS.contains (lowerStr (pySuffix it.name))

/-- The `copy_assets_to` loop (lines 80-89).  `destExists` holds the names
already present in the destination directory; `copied` accumulates the names
copied earlier in this run (also visible to `target.exists()`).  A failing
`shutil.copy2` raises: the loop stops and the exception propagates, which we
record as `some name` in the second component. -/
def copyAssetsRun (destExists copyFails : Str → Bool) :
    List AssetItem → List Str → List Str × Option Str
  | [], copied => (copied.reverse, none)
  | it :: rest, copied =>
    if isAssetFile it then
      if !(destExists it.name || copied.contains it.name) then
        if copyFails it.name then (copied.reverse, some it.name)
        else copyAssetsRun destExists copyFails rest (it.name :: copied)
      else copyAssetsRun destExists copyFails rest copied
    else copyAssetsRun destExists copyFails rest copied

def copyAssetsTo (destExists copyFails : Str → Bool)
    (items : List AssetItem) : List Str × Option Str :=
  copyAssetsRun destExists copyFails items []

/-- The rendering pipeline of lines 129-138, parameterized by the external
`markdown.markdown(-, extensions=["extra", "nl2br"])` function `md`.  Note
line 132's `MsoNormal` substitution is applied to a value that line 135
overwrites by re-rendering from scratch. -/
def renderReviewBody (md : Str → Str) (content : Str) : Str :=
  let rendered := md content
  let rendered := pyReplace (("<p>").toList)
    (("<p class=\"MsoNormal\">").toList) rendered
  let content2 := pyReplace (("\n+++\n").toList) (("\n<br>\n").toList) content
  let rendered2 := md content2
  let rendered3 := pyReplace (("<em>").toList) (("<i>").toList) rendered2
  let rendered4 := pyReplace (("</em>").toList) (("</i>").toList) rendered3
  let rendered5 := pyReplace (("<strong>").toList) (("<b>").toList) rendered4
  let _ := rendered
  pyReplace (("</strong>").toList) (("</b>").toList) rendered5

/-- Modelled from the spec (4.1), for the external `markdown` library that is
not part of this repository: rendering a single-line plain-text body with no
markup characters yields one paragraph, `<p>body</p>`. -/
def mdPlain (s : Str) : Str := ("<p>").toList ++ s ++ ("</p>").toList

def genSeg0 : Str := ("<!DOCTYPE html>\n<html>\n<head>\n  <link rel=\"icon\" type=\"image/x-icon\" href=\"favicon.ico\">\n  <link rel=\"shortcut icon\" href=\"favicon.ico\">\n  <link rel=\"stylesheet\" href=\"rat.css\">\n  <meta name=\"viewport\" content=\"width=device-width, initial-scale=1\">\n  <title>").toList

def genSeg1 : Str := (" — Rat Reviews</title>\n  <link href=\x27https://fonts.googleapis.com/css2?family=Bebas+Neue&family=Blaka&family=DotGothic16&family=Abhaya+Libre&display=swap\x27 rel=\x27stylesheet\x27>\n</head>\n<body class=\"bkg\" style=\"background-image: url(tiles.png)\">\n\n<div class=\"topnav\">\n  <a href=\"https://rat.reviews/Recent\">Recent</a>\n  <a href=\"https://rat.reviews/Archive\">Archive</a>\n  <a href=\"https://rat.reviews/About\">About</a>\n  <a href=\"https://rat.reviews\" class=\"split\">Home</a>\n</div>\n\n<div class=\"review-header-wrap\">\n  <div class=\"review-title-block\">\n    <h1>").toList

def genSeg2 : Str := ("</h1>\n    <p class=\"sub\">").toList

def genSeg3 : Str := (", <i>").toList

def genSeg4 : Str := ("</i> (").toList

def genSeg5 : Str := (")</p>\n  </div>\n</div>\n\n<div class=\"WordSection1 prg\" style=\"word-wrap:break-word;\">\n<br>\n").toList

def genSeg6 : Str := ("\n\n<div class=\"review-signature\">\n  <span class=\"sig-name\">- ").toList

def genSeg7 : Str := ("</span>\n  <span class=\"sig-meta\">").toList

def genSeg8 : Str := ("</span>\n</div>\n\n</div>\n\n<footer>\n  <div class=\"footer\">\n    <p>&copy; Copyright ").toList

def genSeg9 : Str := (", Rat Reviews</p>\n  </div>\n</footer>\n</body>\n</html>\n").toList

/-- `generate_html` (lines 30-76).  Its `review_type` parameter is accepted
but unused by the template, as in the source. -/
def generateHtml (title artist album releaseYear _reviewType pubDateStr
    reviewHtml author : Str) (currentYear : Nat) : Str :=
  genSeg0 ++ title ++ genSeg1 ++ title ++ genSeg2 ++ artist ++ genSeg3 ++
  album ++ genSeg4 ++ releaseYear ++ genSeg5 ++ reviewHtml ++ genSeg6 ++
  author ++ genSeg7 ++ pubDateStr ++ genSeg8 ++ natDec currentYear ++ genSeg9

/-- `f"{n:0wd}"`: decimal, left-padded with zeros to width `w`. -/
def padZeros (w n : Nat) : Str :=
  List.replicate (w - (natDec n).length) '0' ++ natDec n

/-- `str(pub_date)` for a `datetime.date`: `YYYY-MM-DD`, zero-padded. -/
def isoDate (d : PDate) : Str :=
  padZeros 4 d.y ++ '-' :: (padZeros 2 d.m ++ '-' :: padZeros 2 d.d)

/-- The environment a publish run interacts with: the external markdown
renderer, the current date, the script-directory listing, the names already
present in the output directory, and which asset copies fail. -/
structure PublishCfg where
  md : Str → Str
  today : PDate
  assets : List AssetItem
  destExists : Str → Bool
  copyFails : Str → Bool

/-- `publish_review` lines 117-163, after validation and date resolution:
build the output path, render, write, copy assets, rebuild both indexes.  The
effect list records each mutation in program order; a raising asset copy
aborts the run before the index rebuilds. -/
def publishCore (cfg : PublishCfg)
    (title artist album releaseYear rtype author content : Str)
    (pubDate : PDate) : List Effect × POutcome :=
  let yearStr := natDec pubDate.y
  let monthStr := padZeros 2 pubDate.m
  let safeType := reSubToUnderscore rtype
  let outDir : FPath := [segContent, safeType, yearStr, monthStr]
  let filename := reSubDelete (pyReplace [' '] [] album) ++ htmlExt
  let rendered := renderReviewBody cfg.md content
  let metadata := serializeMeta title artist album releaseYear rtype author
    (isoDate pubDate)
  let fullHtml := metadata ++ generateHtml title artist album releaseYear
    rtype (isoDate pubDate) rendered author cfg.today.y
  let copyRes := copyAssetsTo cfg.destExists cfg.copyFails cfg.assets
  let baseEffects := Effect.mkdirE outDir ::
    Effect.writeE (outDir ++ [filename]) fullHtml ::
    copyRes.1.map Effect.copyAsset
  match copyRes.2 with
  | some nm => (baseEffects, POutcome.raisedCopy nm)
  | none => (baseEffects ++ [Effect.archiveRebuilt, Effect.recentRebuilt],
      POutcome.ok)

/-- `publish_review` (lines 93-163): strip the form fields, apply the
`"General"`/`"Ape"` defaults, validate title and album, resolve the publish
date (strict `%Y-%m-%d` parse of the override, else today), then run the
pipeline. -/
def publishReview (cfg : PublishCfg) (s : Submission) : List Effect × POutcome :=
  let title := pyStrip s.title
  let artist := pyStrip s.artist
  let album := pyStrip s.album
  let releaseYear := pyStrip s.releaseYear
  let rtype := if pyStrip s.rtype = [] then sGeneral else pyStrip s.rtype
  let author := if pyStrip s.author = [] then ("Ape").toList else pyStrip s.author
  let content := pyStrip s.content
  if title = [] ∨ album = [] then ([], POutcome.errValidation)
  else
    match s.overrideDate with
    | some raw =>
      match parsePyDate (pyStrip raw) with
      | none => ([], POutcome.errDate)
      | some pd =>
        publishCore cfg title artist album releaseYear rtype author content pd
    | none =>
      publishCore cfg title artist album releaseYear rtype author content
        cfg.today

/-! ### Properties of the stable descending sort -/

theorem PDate.le_refl (a : PDate) : PDate.le a a := by
  unfold PDate.le
  omega

theorem insertRevBy_perm {α : Type} (le : α → α → Bool) (x : α) (l : List α) :
    (insertRevBy le x l).Perm (x :: l) := by
  induction l with
  | nil => simp [insertRevBy]
  | cons y ys ih =>
    simp only [insertRevBy]
    split
    · exact List.Perm.refl _
    · exact (ih.cons y).trans (List.Perm.swap x y ys)

theorem sortRevBy_perm {α : Type} (le : α → α → Bool) (l : List α) :
    (sortRevBy le l).Perm l := by
  induction l with
  | nil => simp [sortRevBy]
  | cons x xs ih =>
    exact (insertRevBy_perm le x (sortRevBy le xs)).trans (ih.cons x)

theorem insertRevBy_sorted {α : Type} {le : α → α → Bool}
    (htot : ∀ a b, le a b = true ∨ le b a = true)
    (htrans : ∀ a b c, le a b = true → le b c = true → le a c = true)
    {l : List α} (x : α) (hl : l.Pairwise (fun a b => le b a = true)) :
    (insertRevBy le x l).Pairwise (fun a b => le b a = true) := by
  induction l with
  | nil => simp [insertRevBy]
  | cons y ys ih =>
    rw [List.pairwise_cons] at hl
    simp only [insertRevBy]
    split
    · rename_i hyx
      rw [List.pairwise_cons]
      constructor
      · intro z hz
        rcases List.mem_cons.1 hz with rfl | hz2
        · exact hyx
        · exact htrans z y x (hl.1 z hz2) hyx
      · exact List.pairwise_cons.2 hl
    · rename_i hyx
      have hxy : le x y = true := by
        rcases htot x y with h | h
        · exact h
        · exact absurd h (by simpa using hyx)
      rw [List.pairwise_cons]
      refine ⟨?_, ih hl.2⟩
      intro z hz
      have hz2 : z ∈ x :: ys := (insertRevBy_perm le x ys).mem_iff.1 hz
      rcases List.mem_cons.1 hz2 with rfl | hz3
      · exact hxy
      · exact hl.1 z hz3

theorem sortRevBy_sorted {α : Type} {le : α → α → Bool}
    (htot : ∀ a b, le a b = true ∨ le b a = true)
    (htrans : ∀ a b c, le a b = true → le b c = true → le a c = true)
    (l : List α) :
    (sortRevBy le l).Pairwise (fun a b => le b a = true) := by
  induction l with
  | nil => simp [sortRevBy]
  | cons x xs ih => exact insertRevBy_sorted htot htrans x ih

theorem insertRevBy_filter_key {α : Type} {le : α → α → Bool} {key : α → PDate}
    (hkey : ∀ a b, le a b = PDate.leB (key a) (key b))
    (k : PDate) (x : α) (l : List α) :
    (insertRevBy le x l).filter (fun a => key a == k) =
      if (key x == k) = true then x :: l.filter (fun a => key a == k)
      else l.filter (fun a => key a == k) := by
  induction l with
  | nil =>
    simp only [insertRevBy, List.filter]
    split <;> simp_all
  | cons y ys ih =>
    simp only [insertRevBy]
    split
    · rw [List.filter_cons]
    · rename_i hyx
      by_cases hpy : (key y == k) = true
      · have hpx : (key x == k) = false := by
          by_contra hc
          have hx1 : (key x == k) = true := by
            cases h : (key x == k) with
            | true => rfl
            | false => exact absurd h hc
          have hx : key x = k := by simpa using hx1
          have hy : key y = k := by simpa using hpy
          apply hyx
          rw [hkey, hy, hx]
          exact decide_eq_true (PDate.le_refl k)
        rw [List.filter_cons, List.filter_cons]
        simp only [hpy, if_true, hpx, Bool.false_eq_true, if_false, ih]
      · have hpy' : (key y == k) = false := by
          cases h : (key y == k) with
          | true => exact absurd h hpy
          | false => rfl
        rw [List.filter_cons, List.filter_cons]
        simp only [hpy', Bool.false_eq_true, if_false, ih]

/-- Stability of the Python sort: for every key value, the elements with that
key appear in the sorted list exactly in their original order. -/
theorem sortRevBy_filter_key {α : Type} {le : α → α → Bool} {key : α → PDate}
    (hkey : ∀ a b, le a b = PDate.leB (key a) (key b))
    (k : PDate) (l : List α) :
    (sortRevBy le l).filter (fun a => key a == k) =
      l.filter (fun a => key a == k) := by
  induction l with
  | nil => rfl
  | cons x xs ih =>
    simp only [sortRevBy]
    rw [insertRevBy_filter_key hkey, List.filter_cons]
    split
    · rw [ih]
    · rw [ih]

theorem rentryLe_total (a b : REntry) : rentryLe a b = true ∨ rentryLe b a = true := by
  unfold rentryLe PDate.leB
  rcases PDate.le_total a.date b.date with h | h
  · exact Or.inl (decide_eq_true h)
  · exact Or.inr (decide_eq_true h)

theorem rentryLe_trans (a b c : REntry) (h1 : rentryLe a b = true)
    (h2 : rentryLe b c = true) : rentryLe a c = true := by
  unfold rentryLe PDate.leB at *
  exact decide_eq_true (PDate.le_trans (of_decide_eq_true h1) (of_decide_eq_true h2))

theorem aentryLe_total (a b : AEntry) : aentryLe a b = true ∨ aentryLe b a = true := by
  unfold aentryLe PDate.leB
  rcases PDate.le_total a.date b.date with h | h
  · exact Or.inl (decide_eq_true h)
  · exact Or.inr (decide_eq_true h)

theorem aentryLe_trans (a b c : AEntry) (h1 : aentryLe a b = true)
    (h2 : aentryLe b c = true) : aentryLe a c = true := by
  unfold aentryLe PDate.leB at *
  exact decide_eq_true (PDate.le_trans (of_decide_eq_true h1) (of_decide_eq_true h2))

/-! ### Writes outside the content store do not change the scan -/

theorem filter_map_overwrite {fs : FS} {p : FPath} {c : Str}
    (h : isContentHtml p = false) :
    (fs.map (fun f => if f.1 == p then (p, c) else f)).filter
      (fun f => isContentHtml f.1) = scanFiles fs := by
  induction fs with
  | nil => rfl
  | cons f rest ih =>
    simp only [List.map_cons]
    by_cases hf : (f.1 == p) = true
    · have hfp : f.1 = p := by simpa using hf
      rw [List.filter_cons]
      simp only [hf, if_true]
      rw [show isContentHtml (p, c).1 = false from h]
      simp only [Bool.false_eq_true, if_false, ih]
      unfold scanFiles
      rw [List.filter_cons]
      rw [show isContentHtml f.1 = false from hfp ▸ h]
      simp only [Bool.false_eq_true, if_false]
    · have hf' : (f.1 == p) = false := by
        cases hx : (f.1 == p) with
        | true => exact absurd hx hf
        | false => rfl
      rw [List.filter_cons]
      simp only [hf', Bool.false_eq_true, if_false, ih]
      unfold scanFiles
      rw [List.filter_cons]

theorem scanFiles_fsWrite {fs : FS} {p : FPath} {c : Str}
    (h : isContentHtml p = false) :
    scanFiles (fsWrite fs p c) = scanFiles fs := by
  unfold fsWrite
  split
  · exact filter_map_overwrite h
  · unfold scanFiles
    rw [List.filter_append]
    have : List.filter (fun f => isContentHtml f.1) [(p, c)] = [] := by
      simp [List.filter, h]
    rw [this, List.append_nil]


/-- **C9**: index rebuilds are idempotent.  For a fixed store state and fixed
current date, running the Archive builder again after it has written
`Archive.html` produces identical Archive page contents, and likewise for the
Recent builder: the written index files live at the script directory, outside
the scanned `Content/` subtree, so the re-scan sees the same store. -/
theorem c9_idempotent_rebuild (fs : FS) (today : PDate) :
    archivePage (runUpdateArchive fs today) today = archivePage fs today ∧
    recentPage (runUpdateRecent fs today) today = recentPage fs today := by
  constructor
  · unfold runUpdateArchive archivePage archiveEntries
    rw [scanFiles_fsWrite (by decide)]
  · unfold runUpdateRecent recentPage recentShown recentEntries
    rw [scanFiles_fsWrite (by decide)]

/-- Filtering a prefix (`take`) gives a prefix of the filtered list. -/
theorem filter_take_prefix {α : Type} (p : α → Bool) (l : List α) (n : Nat) :
    (l.take n).filter p <+: l.filter p := by
  conv_rhs => rw [← List.take_append_drop n l]
  rw [List.filter_append]
  exact List.prefix_append _ _

/-- **C1** (amended): the rebuilt Recent feed shows exactly
`min MAX_RECENT n` entries, where `n` counts the scan records with a
parseable `DATE` *and the `ALBUM` key present* (so exactly 13 whenever more
than 13 qualify); every shown entry is such a record; every qualifying
record that is not shown has a date no later than every shown entry; when at
most 13 records qualify, the feed shows exactly the qualifying records; the
shown dates are non-increasing; and entries with equal dates keep their scan
order (the shown run of each date is a prefix of that date's scan-order
run). -/
theorem c1_recent_cap_amended (fs : FS) :
    (recentShown fs).length = min MAX_RECENT (recentEntries fs).length ∧
    (∀ e ∈ recentShown fs, e ∈ recentEntries fs) ∧
    (∀ d ∈ recentEntries fs, d ∉ recentShown fs →
      ∀ e ∈ recentShown fs, PDate.le d.date e.date) ∧
    ((recentEntries fs).length ≤ MAX_RECENT →
      (recentShown fs).Perm (recentEntries fs)) ∧
    (recentShown fs).Pairwise (fun a b => PDate.le b.date a.date) ∧
    (∀ k : PDate, (recentShown fs).filter (fun e => e.date == k) <+:
      (recentEntries fs).filter (fun e => e.date == k)) := by
  have hperm := sortRevBy_perm rentryLe (recentEntries fs)
  have hsorted := sortRevBy_sorted rentryLe_total rentryLe_trans (recentEntries fs)
  refine ⟨?_, ?_, ?_, ?_, ?_, ?_⟩
  · unfold recentShown
    rw [List.length_take, hperm.length_eq]
  · intro e he
    unfold recentShown at he
    exact hperm.mem_iff.1 (List.mem_of_mem_take he)
  · intro d hd hdns e he
    unfold recentShown at hdns he
    have hd2 : d ∈ sortRevBy rentryLe (recentEntries fs) := hperm.mem_iff.2 hd
    have hsplit := (List.take_append_drop MAX_RECENT
      (sortRevBy rentryLe (recentEntries fs))).symm
    rw [hsplit] at hd2 hsorted
    have hd3 : d ∈ (sortRevBy rentryLe (recentEntries fs)).drop MAX_RECENT := by
      rcases List.mem_append.1 hd2 with h | h
      · exact absurd h hdns
      · exact h
    have hpa := List.pairwise_append.1 hsorted
    exact of_decide_eq_true (hpa.2.2 e he d hd3)
  · intro hlen
    unfold recentShown
    rw [List.take_of_length_le (by rw [hperm.length_eq]; exact hlen)]
    exact hperm
  · exact (hsorted.sublist (List.take_sublist _ _)).imp
      (fun hab => of_decide_eq_true hab)
  · intro k
    have h1 := filter_take_prefix (fun e => e.date == k)
      (sortRevBy rentryLe (recentEntries fs)) MAX_RECENT
    have h2 : (sortRevBy rentryLe (recentEntries fs)).filter
          (fun e => e.date == k) =
        (recentEntries fs).filter (fun e => e.date == k) :=
      sortRevBy_filter_key (fun a b => rfl) k (recentEntries fs)
    rw [h2] at h1
    unfold recentShown
    exact h1

/-- A store with a single document whose metadata has a parseable `DATE` but
no `ALBUM` key: it is a valid metadata record (the archive admits it), yet
the Recent feed is empty. -/
def fsC1 : FS :=
  [([segContent, ("r.html").toList], ("<!--\nDATE: 2024-01-01\n-->").toList)]

/-- **C1** counterexample: the claim as stated is false -- this store has
exactly one file that parses to a valid metadata record (block present,
`DATE` parseable), but the rebuilt Recent feed shows no entries, because
`update_recent` additionally requires the `ALBUM` key. -/
theorem c1_album_filter_cex :
    (archiveEntries fsC1).length = 1 ∧ recentShown fsC1 = [] := by decide

/-- A 14-document store with distinct dates, newest first in file order. -/
def fsDemo : FS :=
  [ ([segContent, ("r01.html").toList],
    ("<!--\nTITLE: T01\nALBUM: A01\nDATE: 2024-01-14\n-->").toList),
   ([segContent, ("r02.html").toList],
    ("<!--\nTITLE: T02\nALBUM: A02\nDATE: 2024-01-13\n-->").toList),
   ([segContent, ("r03.html").toList],
    ("<!--\nTITLE: T03\nALBUM: A03\nDATE: 2024-01-12\n-->").toList),
   ([segContent, ("r04.html").toList],
    ("<!--\nTITLE: T04\nALBUM: A04\nDATE: 2024-01-11\n-->").toList),
   ([segContent, ("r05.html").toList],
    ("<!--\nTITLE: T05\nALBUM: A05\nDATE: 2024-01-10\n-->").toList),
   ([segContent, ("r06.html").toList],
    ("<!--\nTITLE: T06\nALBUM: A06\nDATE: 2024-01-09\n-->").toList),
   ([segContent, ("r07.html").toList],
    ("<!--\nTITLE: T07\nALBUM: A07\nDATE: 2024-01-08\n-->").toList),
   ([segContent, ("r08.html").toList],
    ("<!--\nTITLE: T08\nALBUM: A08\nDATE: 2024-01-07\n-->").toList),
   ([segContent, ("r09.html").toList],
    ("<!--\nTITLE: T09\nALBUM: A09\nDATE: 2024-01-06\n-->").toList),
   ([segContent, ("r10.html").toList],
    ("<!--\nTITLE: T10\nALBUM: A10\nDATE: 2024-01-05\n-->").toList),
   ([segContent, ("r11.html").toList],
    ("<!--\nTITLE: T11\nALBUM: A11\nDATE: 2024-01-04\n-->").toList),
   ([segContent, ("r12.html").toList],
    ("<!--\nTITLE: T12\nALBUM: A12\nDATE: 2024-01-03\n-->").toList),
   ([segContent, ("r13.html").toList],
    ("<!--\nTITLE: T13\nALBUM: A13\nDATE: 2024-01-02\n-->").toList),
   ([segContent, ("r14.html").toList],
    ("<!--\nTITLE: T14\nALBUM: A14\nDATE: 2024-01-01\n-->").toList)]

def dummyR : REntry := ⟨[], [], ⟨0, 0, 0⟩, [], [], [], []⟩

/-- **C1** witness: on a 14-document store exactly `min 13 14 = 13` entries
are shown, and the one dropped entry is no newer than the newest shown
entry. -/
theorem c1_recent_cap_witness :
    (recentShown fsDemo).length = min MAX_RECENT (recentEntries fsDemo).length ∧
    (recentEntries fsDemo).length = 14 ∧
    PDate.le ((recentEntries fsDemo).getD 13 dummyR).date
      ((recentEntries fsDemo).getD 0 dummyR).date :=
  ⟨(c1_recent_cap_amended fsDemo).1, by decide,
   (c1_recent_cap_amended fsDemo).2.2.1 _ (by decide) (by decide) _ (by decide)⟩


/-! ### Recent entries are a subset of archive entries (C10) -/

/-- Whenever the Recent scan loop accepts a file, the Archive scan loop
accepts the same file, and the feed link is the slash-prefixed archive path. -/
theorem archive_of_recent {p : FPath} {text : Str} {r : REntry}
    (h : parseRecentEntry p text = some r) :
    ∃ a : AEntry, parseArchiveEntry p text = some a ∧ r.href = '/' :: a.path := by
  simp only [parseRecentEntry] at h
  simp only [parseArchiveEntry]
  split at h
  · exact absurd h (by simp)
  · rename_i h1
    rw [if_neg h1]
    split at h
    · exact absurd h (by simp)
    · rename_i h2
      have hA : ¬ dictContains (scanMetaDict text) kDATE = false := fun hk =>
        h2 (Or.inl hk)
      rw [if_neg hA]
      split at h
      · exact absurd h (by simp)
      · rename_i dt hdt
        refine ⟨_, rfl, ?_⟩
        have hr := Option.some.inj h
        rw [← hr]

/-- **C10**: the set of documents rendered in the Recent feed is a subset of
those rendered in the Archive: both builders parse files identically, the
Archive admits any file whose first comment block has a parseable `DATE`, and
Recent only adds the requirement that the `ALBUM` key be present (key
presence, not non-emptiness), so Recent can never show a document the Archive
omits. -/
theorem c10_recent_subset_archive (fs : FS) :
    ∀ r ∈ recentShown fs, ∃ a ∈ archiveEntries fs, r.href = '/' :: a.path := by
  intro r hr
  have hr2 : r ∈ recentEntries fs := by
    unfold recentShown at hr
    exact (sortRevBy_perm rentryLe (recentEntries fs)).mem_iff.1
      (List.mem_of_mem_take hr)
  unfold recentEntries at hr2
  obtain ⟨f, hf, hparse⟩ := List.mem_filterMap.1 hr2
  obtain ⟨a, ha, hhref⟩ := archive_of_recent hparse
  refine ⟨a, ?_, hhref⟩
  unfold archiveEntries
  exact List.mem_filterMap.2 ⟨f, hf, ha⟩

/-- **C10** witness: on the demo store, the newest shown Recent entry has a
matching Archive entry. -/
theorem c10_recent_subset_archive_witness :
    ∃ a ∈ archiveEntries fsDemo,
      ((recentEntries fsDemo).getD 0 dummyR).href = '/' :: a.path :=
  c10_recent_subset_archive fsDemo _ (by decide)

/-! ### Archive grouping lemmas (C8) -/

/-- Lookup in a `Nat`-keyed insertion-ordered association list. -/
def alookup {β : Type} (dflt : β) (l : List (Nat × β)) (k : Nat) : β :=
  match l.find? (fun q => q.1 == k) with
  | some q => q.2
  | none => dflt

theorem lookupG_eq_alookup (g : YearGroups) (y : Nat) :
    lookupG g y = alookup [] g y := by
  unfold lookupG alookup
  cases g.find? (fun q => q.1 == y) <;> rfl

theorem lookupM_eq_alookup (ms : MonthGroups) (m : Nat) :
    lookupM ms m = alookup [] ms m := by
  unfold lookupM alookup
  cases ms.find? (fun q => q.1 == m) <;> rfl

theorem alookup_cons {β : Type} (dflt : β) (q : Nat × β) (l : List (Nat × β))
    (k : Nat) :
    alookup dflt (q :: l) k = if (q.1 == k) = true then q.2 else alookup dflt l k := by
  cases h : (q.1 == k) with
  | true =>
    rw [if_pos rfl]
    unfold alookup
    simp only [List.find?_cons, h]
  | false =>
    rw [if_neg Bool.false_ne_true]
    unfold alookup
    simp only [List.find?_cons, h]

theorem alookup_absent {β : Type} (dflt : β) {l : List (Nat × β)} {k : Nat}
    (h : l.any (fun q => q.1 == k) = false) : alookup dflt l k = dflt := by
  unfold alookup
  have : l.find? (fun q => q.1 == k) = none := by
    rw [List.find?_eq_none]
    intro x hx
    have := List.any_eq_false.1 h x hx
    simpa using this
  rw [this]

theorem alookup_map_ne {β : Type} (dflt : β) (f : β → β) {k k' : Nat}
    (h : k' ≠ k) (l : List (Nat × β)) :
    alookup dflt (l.map (fun q => if (q.1 == k) = true then (q.1, f q.2) else q)) k' =
      alookup dflt l k' := by
  induction l with
  | nil => rfl
  | cons q rest ih =>
    rw [List.map_cons, alookup_cons, alookup_cons]
    have hfst : (if (q.1 == k) = true then (q.1, f q.2) else q).1 = q.1 := by
      split <;> rfl
    rw [hfst]
    split
    · rename_i hq
      have hq1 : q.1 = k' := by simpa using hq
      have : (q.1 == k) = false := by
        simp only [beq_eq_false_iff_ne]
        rw [hq1]
        exact h
      simp only [this, Bool.false_eq_true, if_false]
    · exact ih

theorem alookup_map_eq {β : Type} (dflt : β) (f : β → β) {k : Nat}
    {l : List (Nat × β)} (hpres : l.any (fun q => q.1 == k) = true) :
    alookup dflt (l.map (fun q => if (q.1 == k) = true then (q.1, f q.2) else q)) k =
      f (alookup dflt l k) := by
  induction l with
  | nil => simp at hpres
  | cons q rest ih =>
    rw [List.map_cons, alookup_cons, alookup_cons]
    have hfst : (if (q.1 == k) = true then (q.1, f q.2) else q).1 = q.1 := by
      split <;> rfl
    rw [hfst]
    by_cases hq : (q.1 == k) = true
    · simp only [hq, if_true]
    · have hq' : (q.1 == k) = false := by
        cases h : (q.1 == k) with
        | true => exact absurd h hq
        | false => rfl
      simp only [hq', Bool.false_eq_true, if_false]
      have hrest : rest.any (fun q => q.1 == k) = true := by
        rw [List.any_cons] at hpres
        rcases Bool.or_eq_true_iff.1 hpres with h | h
        · exact absurd h hq
        · exact h
      exact ih hrest

theorem alookup_append_single_eq {β : Type} (dflt : β) {l : List (Nat × β)}
    {k : Nat} (v : β) (habs : l.any (fun q => q.1 == k) = false) :
    alookup dflt (l ++ [(k, v)]) k = v := by
  induction l with
  | nil => simp [alookup_cons, alookup]
  | cons q rest ih =>
    rw [List.cons_append, alookup_cons]
    rw [List.any_cons, Bool.or_eq_false_iff] at habs
    simp only [habs.1, Bool.false_eq_true, if_false]
    exact ih habs.2

theorem alookup_append_single_ne {β : Type} (dflt : β) (l : List (Nat × β))
    {k k' : Nat} (v : β) (h : k' ≠ k) :
    alookup dflt (l ++ [(k, v)]) k' = alookup dflt l k' := by
  induction l with
  | nil =>
    simp only [List.nil_append, alookup_cons]
    have : ((k, v).1 == k') = false := by
      simp only [beq_eq_false_iff_ne]
      exact fun hc => h (hc.symm)
    simp only [this, Bool.false_eq_true, if_false]
  | cons q rest ih =>
    rw [List.cons_append, alookup_cons, alookup_cons]
    split
    · rfl
    · exact ih

theorem keys_map_replace {β : Type} (f : β → β) (k : Nat) (l : List (Nat × β)) :
    (l.map (fun q => if (q.1 == k) = true then (q.1, f q.2) else q)).map
      (fun q => q.1) = l.map (fun q => q.1) := by
  induction l with
  | nil => rfl
  | cons q rest ih =>
    simp only [List.map_cons, ih]
    congr 1
    split <;> rfl

theorem lookupG_yearAdd (g : YearGroups) (e : AEntry) (y' : Nat) :
    lookupG (yearAdd g e) y' =
      if y' = e.date.y then monthAdd (lookupG g e.date.y) e.date.m e
      else lookupG g y' := by
  simp only [lookupG_eq_alookup]
  unfold yearAdd
  split
  · rename_i hpres
    by_cases hy : y' = e.date.y
    · subst hy
      rw [alookup_map_eq [] (fun ms => monthAdd ms e.date.m e) hpres, if_pos rfl]
    · rw [alookup_map_ne [] (fun ms => monthAdd ms e.date.m e) hy g, if_neg hy]
  · rename_i habs
    have habs' : g.any (fun q => q.1 == e.date.y) = false := by
      cases h : g.any (fun q => q.1 == e.date.y) with
      | true => exact absurd h habs
      | false => rfl
    by_cases hy : y' = e.date.y
    · subst hy
      rw [alookup_append_single_eq [] _ habs', if_pos rfl,
        alookup_absent [] habs']
    · rw [alookup_append_single_ne [] g _ hy, if_neg hy]

theorem lookupM_monthAdd (ms : MonthGroups) (m : Nat) (e : AEntry) (m' : Nat) :
    lookupM (monthAdd ms m e) m' =
      if m' = m then lookupM ms m ++ [e] else lookupM ms m' := by
  simp only [lookupM_eq_alookup]
  unfold monthAdd
  split
  · rename_i hpres
    by_cases hm : m' = m
    · subst hm
      rw [alookup_map_eq [] (fun l2 => l2 ++ [e]) hpres, if_pos rfl]
    · rw [alookup_map_ne [] (fun l2 => l2 ++ [e]) hm ms, if_neg hm]
  · rename_i habs
    have habs' : ms.any (fun q => q.1 == m) = false := by
      cases h : ms.any (fun q => q.1 == m) with
      | true => exact absurd h habs
      | false => rfl
    by_cases hm : m' = m
    · subst hm
      rw [alookup_append_single_eq [] _ habs', if_pos rfl,
        alookup_absent [] habs']
      rfl
    · rw [alookup_append_single_ne [] ms _ hm, if_neg hm]

theorem lookup_foldl_yearAdd (y m : Nat) :
    ∀ (es : List AEntry) (g : YearGroups),
      lookupM (lookupG (es.foldl yearAdd g) y) m =
        lookupM (lookupG g y) m ++
          es.filter (fun e => e.date.y == y && e.date.m == m) := by
  intro es
  induction es with
  | nil => intro g; simp
  | cons e es2 ih =>
    intro g
    simp only [List.foldl_cons]
    rw [ih (yearAdd g e), lookupG_yearAdd, List.filter_cons]
    by_cases hy : y = e.date.y
    · rw [if_pos hy, lookupM_monthAdd]
      by_cases hm : m = e.date.m
      · rw [if_pos hm]
        have hpred : (e.date.y == y && e.date.m == m) = true := by
          simp only [Bool.and_eq_true, beq_iff_eq]
          exact ⟨hy.symm, hm.symm⟩
        rw [hpred]
        simp only [if_true, ← hy, ← hm, List.append_assoc, List.singleton_append]
      · rw [if_neg hm]
        have hpred : (e.date.y == y && e.date.m == m) = false := by
          have : (e.date.m == m) = false := by
            simp only [beq_eq_false_iff_ne]
            exact fun hc => hm hc.symm
          rw [this, Bool.and_false]
        rw [hpred]
        simp only [Bool.false_eq_true, if_false, ← hy]
    · rw [if_neg hy]
      have hpred : (e.date.y == y && e.date.m == m) = false := by
        have : (e.date.y == y) = false := by
          simp only [beq_eq_false_iff_ne]
          exact fun hc => hy hc.symm
        rw [this, Bool.false_and]
      rw [hpred]
      simp only [Bool.false_eq_true, if_false]

theorem keys_yearAdd (g : YearGroups) (e : AEntry) :
    (yearAdd g e).map (fun q => q.1) =
      if g.any (fun q => q.1 == e.date.y) = true then g.map (fun q => q.1)
      else g.map (fun q => q.1) ++ [e.date.y] := by
  unfold yearAdd
  split
  · exact keys_map_replace (fun ms => monthAdd ms e.date.m e) e.date.y g
  · simp

theorem mkeys_monthAdd (ms : MonthGroups) (m : Nat) (e : AEntry) :
    (monthAdd ms m e).map (fun q => q.1) =
      if ms.any (fun q => q.1 == m) = true then ms.map (fun q => q.1)
      else ms.map (fun q => q.1) ++ [m] := by
  unfold monthAdd
  split
  · exact keys_map_replace (fun l2 => l2 ++ [e]) m ms
  · simp

theorem nodup_append_fresh {β : Type} {l : List (Nat × β)} {k : Nat}
    (h : (l.map (fun q => q.1)).Nodup)
    (habs : l.any (fun q => q.1 == k) = false) :
    (l.map (fun q => q.1) ++ [k]).Nodup := by
  apply List.Nodup.append h (List.nodup_singleton k)
  rw [List.disjoint_singleton]
  intro hmem
  rcases List.mem_map.1 hmem with ⟨q, hq, hq2⟩
  have := List.any_eq_false.1 habs q hq
  simp only [beq_iff_eq] at this
  exact this hq2

theorem keys_nodup_foldl :
    ∀ (es : List AEntry) (g : YearGroups),
      (g.map (fun q => q.1)).Nodup →
      ((es.foldl yearAdd g).map (fun q => q.1)).Nodup := by
  intro es
  induction es with
  | nil => intro g h; exact h
  | cons e es2 ih =>
    intro g h
    simp only [List.foldl_cons]
    apply ih
    rw [keys_yearAdd]
    split
    · exact h
    · rename_i habs
      have habs2 : g.any (fun q => q.1 == e.date.y) = false := by
        cases hh : g.any (fun q => q.1 == e.date.y) with
        | true => exact absurd hh habs
        | false => rfl
      exact nodup_append_fresh h habs2

theorem mkeys_nodup_monthAdd (ms : MonthGroups) (m : Nat) (e : AEntry)
    (h : (ms.map (fun q => q.1)).Nodup) :
    ((monthAdd ms m e).map (fun q => q.1)).Nodup := by
  rw [mkeys_monthAdd]
  split
  · exact h
  · rename_i habs
    have habs2 : ms.any (fun q => q.1 == m) = false := by
      cases hh : ms.any (fun q => q.1 == m) with
      | true => exact absurd hh habs
      | false => rfl
    exact nodup_append_fresh h habs2

theorem mkeys_nodup_foldl :
    ∀ (es : List AEntry) (g : YearGroups),
      (∀ y, ((lookupG g y).map (fun q => q.1)).Nodup) →
      ∀ y, ((lookupG (es.foldl yearAdd g) y).map (fun q => q.1)).Nodup := by
  intro es
  induction es with
  | nil => intro g h; exact h
  | cons e es2 ih =>
    intro g h
    simp only [List.foldl_cons]
    apply ih
    intro y
    rw [lookupG_yearAdd]
    split
    · exact mkeys_nodup_monthAdd _ _ _ (h e.date.y)
    · exact h y

theorem natble_total (a b : Nat) : Nat.ble a b = true ∨ Nat.ble b a = true := by
  rcases Nat.le_total a b with h | h
  · exact Or.inl (by simpa using h)
  · exact Or.inr (by simpa using h)

theorem natble_trans (a b c : Nat) (h1 : Nat.ble a b = true)
    (h2 : Nat.ble b c = true) : Nat.ble a c = true := by
  simp only [Nat.ble_eq] at *
  exact Nat.le_trans h1 h2

theorem sortKeysDesc_strictDesc (ks : List Nat) (h : ks.Nodup) :
    (sortKeysDesc ks).Pairwise (fun a b => b < a) := by
  have h1 : (sortKeysDesc ks).Pairwise (fun a b => Nat.ble b a = true) :=
    sortRevBy_sorted natble_total natble_trans ks
  have h2 : (sortKeysDesc ks).Nodup :=
    ((sortRevBy_perm Nat.ble ks).nodup_iff).2 h
  exact (h1.and h2).imp
    (fun hab => Nat.lt_of_le_of_ne (by simpa using hab.1) (Ne.symm hab.2))

theorem lookup_archiveGrouped (es2 : List AEntry) (y m : Nat) :
    lookupM (lookupG (archiveGrouped es2) y) m =
      es2.filter (fun e => e.date.y == y && e.date.m == m) := by
  unfold archiveGrouped
  rw [lookup_foldl_yearAdd]
  rfl

theorem archivePlan_eq (es : List AEntry) :
    archivePlan es =
      (sortKeysDesc ((archiveGrouped (sortRevBy aentryLe es)).map
          (fun q => q.1))).map
        (fun y =>
          (y, (sortKeysDesc ((lookupG (archiveGrouped (sortRevBy aentryLe es))
                  y).map (fun q => q.1))).map
              (fun m =>
                (m, lookupM (lookupG (archiveGrouped (sortRevBy aentryLe es))
                      y) m)))) := rfl

theorem archivePlan_shape {es : List AEntry} {yg : Nat × List (Nat × List AEntry)}
    (h : yg ∈ archivePlan es) :
    yg.2 = (sortKeysDesc ((lookupG (archiveGrouped (sortRevBy aentryLe es))
          yg.1).map (fun q => q.1))).map
        (fun m =>
          (m, lookupM (lookupG (archiveGrouped (sortRevBy aentryLe es))
                yg.1) m)) := by
  rw [archivePlan_eq] at h
  rcases List.mem_map.1 h with ⟨y, hy, rfl⟩
  rfl

theorem archivePlan_month_shape {es : List AEntry}
    {yg : Nat × List (Nat × List AEntry)} (h : yg ∈ archivePlan es)
    {mg : Nat × List AEntry} (hm : mg ∈ yg.2) :
    mg.2 = (sortRevBy aentryLe es).filter
      (fun e => e.date.y == yg.1 && e.date.m == mg.1) := by
  rw [archivePlan_shape h] at hm
  rcases List.mem_map.1 hm with ⟨m, hmm2, rfl⟩
  exact lookup_archiveGrouped _ _ _

theorem archivePlan_years_desc (es : List AEntry) :
    (archivePlan es).Pairwise (fun a b => b.1 < a.1) := by
  rw [archivePlan_eq]
  refine List.pairwise_map.2 ?_
  exact sortKeysDesc_strictDesc _ (keys_nodup_foldl _ [] (by simp))

theorem archivePlan_months_desc {es : List AEntry}
    {yg : Nat × List (Nat × List AEntry)} (h : yg ∈ archivePlan es) :
    yg.2.Pairwise (fun a b => b.1 < a.1) := by
  rw [archivePlan_shape h]
  refine List.pairwise_map.2 ?_
  apply sortKeysDesc_strictDesc
  apply mkeys_nodup_foldl _ [] _ yg.1
  intro y
  simp [lookupG]

theorem archivePlan_month_sorted {es : List AEntry}
    {yg : Nat × List (Nat × List AEntry)} (h : yg ∈ archivePlan es)
    {mg : Nat × List AEntry} (hm : mg ∈ yg.2) :
    mg.2.Pairwise (fun a b => PDate.le b.date a.date) := by
  rw [archivePlan_month_shape h hm]
  have hs : (sortRevBy aentryLe es).Pairwise
      (fun a b => aentryLe b a = true) :=
    sortRevBy_sorted aentryLe_total aentryLe_trans es
  exact (hs.filter _).imp (fun hab => of_decide_eq_true hab)

theorem archivePlan_month_stable {es : List AEntry}
    {yg : Nat × List (Nat × List AEntry)} (h : yg ∈ archivePlan es)
    {mg : Nat × List AEntry} (hm : mg ∈ yg.2) (d : PDate) :
    mg.2.filter (fun e => e.date == d) =
      if d.y = yg.1 ∧ d.m = mg.1 then es.filter (fun e => e.date == d)
      else [] := by
  rw [archivePlan_month_shape h hm, List.filter_filter]
  by_cases hd : d.y = yg.1 ∧ d.m = mg.1
  · rw [if_pos hd]
    have hcongr : ∀ e ∈ sortRevBy aentryLe es,
        ((e.date == d) && (e.date.y == yg.1 && e.date.m == mg.1)) =
          (e.date == d) := by
      intro e _
      cases hed : (e.date == d) with
      | false => simp
      | true =>
        have hed2 : e.date = d := by simpa using hed
        simp [hed2, hd.1, hd.2]
    rw [List.filter_congr hcongr]
    exact sortRevBy_filter_key (fun a b => rfl) d es
  · rw [if_neg hd, List.filter_eq_nil_iff]
    intro e _ hcontra
    simp only [Bool.and_eq_true, beq_iff_eq] at hcontra
    exact hd ⟨hcontra.1 ▸ hcontra.2.1, hcontra.1 ▸ hcontra.2.2⟩

/-- C8: the archive plan (the year/month/entry structure rendered by
`update_archive`, lines 211-232) lists year groups in strictly descending
order, months within each year in strictly descending order; each month
group holds exactly the entries of that month drawn from the stable
descending-date sort of the scan, so entries within a month are in
non-increasing date order, and entries with identical dates appear in
scan order. -/
theorem c8_archive_ordering (es : List AEntry) :
    ((archivePlan es).Pairwise (fun a b => b.1 < a.1)) ∧
    (∀ yg ∈ archivePlan es, yg.2.Pairwise (fun a b => b.1 < a.1)) ∧
    (∀ yg ∈ archivePlan es, ∀ mg ∈ yg.2,
        mg.2 = (sortRevBy aentryLe es).filter
          (fun e => e.date.y == yg.1 && e.date.m == mg.1)) ∧
    (∀ yg ∈ archivePlan es, ∀ mg ∈ yg.2,
        mg.2.Pairwise (fun a b => PDate.le b.date a.date)) ∧
    (∀ yg ∈ archivePlan es, ∀ mg ∈ yg.2, ∀ d : PDate,
        mg.2.filter (fun e => e.date == d) =
          if d.y = yg.1 ∧ d.m = mg.1 then es.filter (fun e => e.date == d)
          else []) :=
  ⟨archivePlan_years_desc es,
   fun _ h => archivePlan_months_desc h,
   fun _ h _ hm => archivePlan_month_shape h hm,
   fun _ h _ hm => archivePlan_month_sorted h hm,
   fun _ h _ hm d => archivePlan_month_stable h hm d⟩

/-! ### The written file name (C2) -/

/-- The paths of the `writeE` effects of a run, in order. -/
def writePaths : List Effect → List FPath
  | [] => []
  | e :: rest =>
    (match e with | Effect.writeE p _ => [p] | _ => []) ++ writePaths rest

/-- The file names (last path segments) of the `writeE` effects. -/
def writtenNames (effs : List Effect) : List Str :=
  (writePaths effs).filterMap (fun p => p.getLast?)

theorem writePaths_append (l1 l2 : List Effect) :
    writePaths (l1 ++ l2) = writePaths l1 ++ writePaths l2 := by
  induction l1 with
  | nil => rfl
  | cons e rest ih =>
    simp only [List.cons_append, writePaths, List.append_eq, ih,
      List.append_assoc]

theorem writePaths_map_copyAsset (copied : List Str) :
    writePaths (copied.map Effect.copyAsset) = [] := by
  induction copied with
  | nil => rfl
  | cons n rest ih =>
    simp only [List.map_cons, writePaths, ih]
    rfl

theorem writePaths_publishCore (cfg : PublishCfg)
    (t a al ry rt au c : Str) (pd : PDate) :
    writePaths (publishCore cfg t a al ry rt au c pd).1 =
      [[segContent, reSubToUnderscore rt, natDec pd.y, padZeros 2 pd.m,
        reSubDelete (pyReplace [' '] [] al) ++ htmlExt]] := by
  simp only [publishCore]
  split
  · simp [writePaths, writePaths_map_copyAsset]
  · simp [writePaths, writePaths_append, writePaths_map_copyAsset]

/-- C2 (amended): for every publish run that passes validation and date
resolution, exactly one document is written, and its file name is built from
the ALBUM field -- the album with spaces removed and the remaining
non-word/non-hyphen characters deleted, plus `.html` -- not from the title as
the spec claims. -/
theorem c2_filename_from_album (cfg : PublishCfg) (s : Submission)
    (effs : List Effect) (out : POutcome)
    (h : publishReview cfg s = (effs, out))
    (hv : out ≠ POutcome.errValidation) (hd : out ≠ POutcome.errDate) :
    writtenNames effs =
      [reSubDelete (pyReplace [' '] [] (pyStrip s.album)) ++ htmlExt] := by
  simp only [publishReview] at h
  split at h
  · injection h with h1 h2
    exact absurd h2.symm hv
  · split at h
    · split at h
      · injection h with h1 h2
        exact absurd h2.symm hd
      · have h1 : (publishCore cfg (pyStrip s.title) (pyStrip s.artist)
            (pyStrip s.album) (pyStrip s.releaseYear)
            (if pyStrip s.rtype = [] then sGeneral else pyStrip s.rtype)
            (if pyStrip s.author = [] then ("Ape").toList else pyStrip s.author)
            (pyStrip s.content) _).1 = effs := congrArg Prod.fst h
        rw [← h1]
        unfold writtenNames
        rw [writePaths_publishCore]
        rfl
    · have h1 : (publishCore cfg (pyStrip s.title) (pyStrip s.artist)
          (pyStrip s.album) (pyStrip s.releaseYear)
          (if pyStrip s.rtype = [] then sGeneral else pyStrip s.rtype)
          (if pyStrip s.author = [] then ("Ape").toList else pyStrip s.author)
          (pyStrip s.content) cfg.today).1 = effs := congrArg Prod.fst h
      rw [← h1]
      unfold writtenNames
      rw [writePaths_publishCore]
      rfl

/-- A publish submission whose title and album differ, used to separate the
two as filename sources. -/
def subC2 : Submission :=
  { title := ("Review A").toList, artist := ("The Band").toList,
    album := ("LP One").toList, releaseYear := ("2001").toList,
    rtype := ("General").toList, author := ("Ape").toList,
    content := ("hello").toList,
    overrideDate := some (("2024-03-05").toList) }

def cfgC2 : PublishCfg :=
  { md := mdPlain, today := ⟨2024, 3, 6⟩, assets := [],
    destExists := fun _ => false, copyFails := fun _ => false }

/-- C2 counterexample: publishing a review titled `Review A` of the album
`LP One` writes `LPOne.html` -- the name derives from the album, not from the
title (`ReviewA.html`) as the spec states. -/
theorem c2_title_filename_cex :
    writtenNames (publishReview cfgC2 subC2).1 = [("LPOne.html").toList] ∧
    ("LPOne.html").toList ≠
      reSubDelete (pyReplace [' '] [] (pyStrip subC2.title)) ++ htmlExt := by
  refine ⟨by decide, by decide⟩

theorem c2_filename_from_album_witness :
    writtenNames (publishReview cfgC2 subC2).1 =
      [reSubDelete (pyReplace [' '] [] (pyStrip subC2.album)) ++ htmlExt] :=
  c2_filename_from_album cfgC2 subC2 (publishReview cfgC2 subC2).1
    (publishReview cfgC2 subC2).2 rfl (by decide) (by decide)

/-! ### The dead MsoNormal substitution (C3) -/

/-- C3 (code bug): line 132 replaces each `<p>` of the rendered markdown
with `<p class="MsoNormal">`, but line 135 re-renders the markdown from
scratch into the same variable, so the substitution never reaches the
published page: the pipeline result equals the re-render with only the
em/strong replacements applied, for every markdown renderer and body; for
the plain one-paragraph body `hello` the published fragment is
`<p>hello</p>`, with no paragraph carrying the `MsoNormal` class. -/
theorem c3_msonormal_dead :
    (∀ (md : Str → Str) (content : Str),
        renderReviewBody md content =
          pyReplace (("</strong>").toList) (("</b>").toList)
            (pyReplace (("<strong>").toList) (("<b>").toList)
              (pyReplace (("</em>").toList) (("</i>").toList)
                (pyReplace (("<em>").toList) (("<i>").toList)
                  (md (pyReplace (("\n+++\n").toList) (("\n<br>\n").toList)
                    content)))))) ∧
    renderReviewBody mdPlain (("hello").toList) = ("<p>hello</p>").toList ∧
    containsSub (("MsoNormal").toList)
      (renderReviewBody mdPlain (("hello").toList)) = false := by
  refine ⟨fun md content => rfl, by decide, by decide⟩

/-! ### Errors before any mutation (C7) -/

/-- C7: a missing (empty after stripping) title or album, or an override
date that does not parse strictly as `YYYY-MM-DD`, makes publish return the
corresponding error with an empty effect list: no directory is made, no file
is written, no asset is copied and neither index rebuild runs. -/
theorem c7_errors_before_mutation (cfg : PublishCfg) (s : Submission) :
    ((pyStrip s.title = [] ∨ pyStrip s.album = []) →
        publishReview cfg s = ([], POutcome.errValidation)) ∧
    (∀ raw, s.overrideDate = some raw → parsePyDate (pyStrip raw) = none →
        ¬(pyStrip s.title = [] ∨ pyStrip s.album = []) →
        publishReview cfg s = ([], POutcome.errDate)) := by
  constructor
  · intro h
    simp only [publishReview]
    rw [if_pos h]
  · intro raw hraw hparse hv
    simp only [publishReview, hraw]
    rw [if_neg hv, hparse]

/-! ### Asset copying (C6) -/

theorem copyAssetsRun_skip (d f : Str → Bool) :
    ∀ (items : List AssetItem) (copied : List Str) (n : Str),
      n ∈ (copyAssetsRun d f items copied).1 → d n = false ∨ n ∈ copied := by
  intro items
  induction items with
  | nil =>
    intro copied n h
    right
    simpa [copyAssetsRun] using h
  | cons it rest ih =>
    intro copied n h
    simp only [copyAssetsRun] at h
    split at h
    · split at h
      · split at h
        · right
          simpa using h
        · rcases ih _ _ h with h2 | h2
          · exact Or.inl h2
          · rcases List.mem_cons.1 h2 with h3 | h3
            · subst h3
              rename_i ha hskip hfail
              left
              have hor : (d it.name || copied.contains it.name) = false := by
                cases hdd : (d it.name || copied.contains it.name) with
                | true => rw [hdd] at hskip; exact absurd hskip (by decide)
                | false => rfl
              exact (Bool.or_eq_false_iff.1 hor).1
            · exact Or.inr h3
      · exact ih _ _ h
    · exact ih _ _ h

theorem copyAssetsRun_fail (d f : Str → Bool) :
    ∀ (items : List AssetItem) (copied : List Str) (nm : Str),
      (copyAssetsRun d f items copied).2 = some nm → f nm = true := by
  intro items
  induction items with
  | nil =>
    intro copied nm h
    simp [copyAssetsRun] at h
  | cons it rest ih =>
    intro copied nm h
    simp only [copyAssetsRun] at h
    split at h
    · split at h
      · split at h
        · rename_i ha hskip hfail
          have hnm : it.name = nm := by simpa using h
          rw [← hnm]
          exact hfail
        · exact ih _ _ h
      · exact ih _ _ h
    · exact ih _ _ h

theorem publishCore_copyAsset_mem (cfg : PublishCfg)
    (t a al ry rt au c : Str) (pd : PDate) (n : Str)
    (h : Effect.copyAsset n ∈ (publishCore cfg t a al ry rt au c pd).1) :
    cfg.destExists n = false := by
  simp only [publishCore] at h
  have hmap : Effect.copyAsset n ∈
      (copyAssetsTo cfg.destExists cfg.copyFails cfg.assets).1.map
        Effect.copyAsset := by
    split at h
    · rcases List.mem_cons.1 h with h1 | h1
      · exact Effect.noConfusion h1
      · rcases List.mem_cons.1 h1 with h2 | h2
        · exact Effect.noConfusion h2
        · exact h2
    · rcases List.mem_append.1 h with h1 | h1
      · rcases List.mem_cons.1 h1 with h2 | h2
        · exact Effect.noConfusion h2
        · rcases List.mem_cons.1 h2 with h3 | h3
          · exact Effect.noConfusion h3
          · exact h3
      · rcases List.mem_cons.1 h1 with h2 | h2
        · exact Effect.noConfusion h2
        · rcases List.mem_cons.1 h2 with h3 | h3
          · exact Effect.noConfusion h3
          · exact absurd h3 (List.not_mem_nil _)
  rcases List.mem_map.1 hmap with ⟨x, hx, heq⟩
  have hxn : x = n := by injection heq
  subst hxn
  rcases copyAssetsRun_skip cfg.destExists cfg.copyFails cfg.assets [] x hx
    with h5 | h5
  · exact h5
  · exact absurd h5 (List.not_mem_nil _)

theorem publishCore_raised (cfg : PublishCfg)
    (t a al ry rt au c : Str) (pd : PDate) (nm : Str)
    (h : (publishCore cfg t a al ry rt au c pd).2 = POutcome.raisedCopy nm) :
    cfg.copyFails nm = true ∧
      Effect.archiveRebuilt ∉ (publishCore cfg t a al ry rt au c pd).1 ∧
      Effect.recentRebuilt ∉ (publishCore cfg t a al ry rt au c pd).1 := by
  simp only [publishCore] at h ⊢
  cases hsc : (copyAssetsTo cfg.destExists cfg.copyFails cfg.assets).2 with
  | none =>
    simp only [hsc] at h
    exact POutcome.noConfusion h
  | some nm2 =>
    simp only [hsc] at h ⊢
    have hnm : nm2 = nm := by injection h
    subst hnm
    refine ⟨copyAssetsRun_fail cfg.destExists cfg.copyFails cfg.assets [] nm2
      hsc, ?_, ?_⟩
    · intro hmem
      rcases List.mem_cons.1 hmem with h1 | h1
      · exact Effect.noConfusion h1
      rcases List.mem_cons.1 h1 with h2 | h2
      · exact Effect.noConfusion h2
      rcases List.mem_map.1 h2 with ⟨x, hx, heq⟩
      exact Effect.noConfusion heq
    · intro hmem
      rcases List.mem_cons.1 hmem with h1 | h1
      · exact Effect.noConfusion h1
      rcases List.mem_cons.1 h1 with h2 | h2
      · exact Effect.noConfusion h2
      rcases List.mem_map.1 h2 with ⟨x, hx, heq⟩
      exact Effect.noConfusion heq

theorem publishCore_ok (cfg : PublishCfg)
    (t a al ry rt au c : Str) (pd : PDate)
    (h : (publishCore cfg t a al ry rt au c pd).2 = POutcome.ok) :
    Effect.archiveRebuilt ∈ (publishCore cfg t a al ry rt au c pd).1 ∧
      Effect.recentRebuilt ∈ (publishCore cfg t a al ry rt au c pd).1 := by
  simp only [publishCore] at h ⊢
  cases hsc : (copyAssetsTo cfg.destExists cfg.copyFails cfg.assets).2 with
  | some nm2 =>
    simp only [hsc] at h
    exact POutcome.noConfusion h
  | none =>
    simp only [hsc]
    constructor <;> (apply List.mem_append_right; simp)

theorem publishCore_c6parts (cfg : PublishCfg)
    (t a al ry rt au c : Str) (pd : PDate) :
    (∀ n, Effect.copyAsset n ∈ (publishCore cfg t a al ry rt au c pd).1 →
        cfg.destExists n = false) ∧
    (∀ nm, (publishCore cfg t a al ry rt au c pd).2 = POutcome.raisedCopy nm →
        cfg.copyFails nm = true ∧
        Effect.archiveRebuilt ∉ (publishCore cfg t a al ry rt au c pd).1 ∧
        Effect.recentRebuilt ∉ (publishCore cfg t a al ry rt au c pd).1) ∧
    ((publishCore cfg t a al ry rt au c pd).2 = POutcome.ok →
        Effect.archiveRebuilt ∈ (publishCore cfg t a al ry rt au c pd).1 ∧
        Effect.recentRebuilt ∈ (publishCore cfg t a al ry rt au c pd).1) :=
  ⟨fun n hn => publishCore_copyAsset_mem cfg t a al ry rt au c pd n hn,
   fun nm hnm => publishCore_raised cfg t a al ry rt au c pd nm hnm,
   fun hok => publishCore_ok cfg t a al ry rt au c pd hok⟩

/-- C6 (amended): an asset whose name already exists at the destination is
indeed skipped, never overwritten (every copied asset had `destExists`
false); but an individual copy failure is fatal, not collected: the
exception propagates (`raisedCopy`), the remaining assets are not
considered, and neither index rebuild runs -- the rebuilds run exactly when
publish completes with `ok`. -/
theorem c6_asset_copy_amended (cfg : PublishCfg) (s : Submission)
    (effs : List Effect) (out : POutcome)
    (h : publishReview cfg s = (effs, out)) :
    (∀ n, Effect.copyAsset n ∈ effs → cfg.destExists n = false) ∧
    (∀ nm, out = POutcome.raisedCopy nm → cfg.copyFails nm = true ∧
        Effect.archiveRebuilt ∉ effs ∧ Effect.recentRebuilt ∉ effs) ∧
    (out = POutcome.ok →
        Effect.archiveRebuilt ∈ effs ∧ Effect.recentRebuilt ∈ effs) := by
  simp only [publishReview] at h
  split at h
  · injection h with h1 h2
    subst h1
    subst h2
    refine ⟨?_, ?_, ?_⟩
    · intro n hn
      exact absurd hn (List.not_mem_nil _)
    · intro nm hnm
      exact POutcome.noConfusion hnm
    · intro hok
      exact POutcome.noConfusion hok
  · split at h
    · split at h
      · injection h with h1 h2
        subst h1
        subst h2
        refine ⟨?_, ?_, ?_⟩
        · intro n hn
          exact absurd hn (List.not_mem_nil _)
        · intro nm hnm
          exact POutcome.noConfusion hnm
        · intro hok
          exact POutcome.noConfusion hok
      · have h1 := congrArg Prod.fst h
        have h2 := congrArg Prod.snd h
        simp only at h1 h2
        subst h1
        subst h2
        exact publishCore_c6parts cfg _ _ _ _ _ _ _ _
    · have h1 := congrArg Prod.fst h
      have h2 := congrArg Prod.snd h
      simp only at h1 h2
      subst h1
      subst h2
      exact publishCore_c6parts cfg _ _ _ _ _ _ _ _

/-- A publish environment whose first asset copy fails. -/
def cfgC6 : PublishCfg :=
  { md := mdPlain, today := ⟨2024, 3, 6⟩,
    assets := [⟨("a.css").toList, true⟩, ⟨("b.css").toList, true⟩],
    destExists := fun _ => false,
    copyFails := fun n => n == ("a.css").toList }

def subC6 : Submission :=
  { title := ("T").toList, artist := ("A").toList, album := ("Al").toList,
    releaseYear := ("2001").toList, rtype := [], author := [],
    content := ("hi").toList, overrideDate := none }

/-- C6 counterexample: with a failing copy of `a.css` the publish run
raises (`raisedCopy "a.css"`), the later asset `b.css` is never considered,
and neither index rebuild runs -- the failure is fatal, not collected and
reported. -/
theorem c6_copy_failure_cex :
    (publishReview cfgC6 subC6).2 = POutcome.raisedCopy (("a.css").toList) ∧
    Effect.copyAsset (("b.css").toList) ∉ (publishReview cfgC6 subC6).1 ∧
    Effect.archiveRebuilt ∉ (publishReview cfgC6 subC6).1 ∧
    Effect.recentRebuilt ∉ (publishReview cfgC6 subC6).1 := by
  refine ⟨by decide, by decide, by decide, by decide⟩

theorem c6_asset_copy_amended_witness :
    (∀ n, Effect.copyAsset n ∈ (publishReview cfgC6 subC6).1 →
        cfgC6.destExists n = false) ∧
    (∀ nm, (publishReview cfgC6 subC6).2 = POutcome.raisedCopy nm →
        cfgC6.copyFails nm = true ∧
        Effect.archiveRebuilt ∉ (publishReview cfgC6 subC6).1 ∧
        Effect.recentRebuilt ∉ (publishReview cfgC6 subC6).1) ∧
    ((publishReview cfgC6 subC6).2 = POutcome.ok →
        Effect.archiveRebuilt ∈ (publishReview cfgC6 subC6).1 ∧
        Effect.recentRebuilt ∈ (publishReview cfgC6 subC6).1) :=
  c6_asset_copy_amended cfgC6 subC6 (publishReview cfgC6 subC6).1
    (publishReview cfgC6 subC6).2 rfl

/-! ### Paths are script-relative, not store-relative (C4) -/

theorem parseArchiveEntry_path {p : FPath} {text : Str} {a : AEntry}
    (h : parseArchiveEntry p text = some a) : a.path = joinSlash p := by
  simp only [parseArchiveEntry] at h
  split at h
  · exact absurd h (by simp)
  · split at h
    · exact absurd h (by simp)
    · split at h
      · exact absurd h (by simp)
      · have h2 := Option.some.inj h
        rw [← h2]

theorem parseRecentEntry_href {p : FPath} {text : Str} {r : REntry}
    (h : parseRecentEntry p text = some r) : r.href = '/' :: joinSlash p := by
  simp only [parseRecentEntry] at h
  split at h
  · exact absurd h (by simp)
  · split at h
    · exact absurd h (by simp)
    · split at h
      · exact absurd h (by simp)
      · have h2 := Option.some.inj h
        rw [← h2]

theorem isContentHtml_shape {p : FPath} (h : isContentHtml p = true) :
    ∃ rest, p = segContent :: rest := by
  cases p with
  | nil => simp [isContentHtml] at h
  | cons s0 rest =>
    refine ⟨rest, ?_⟩
    simp only [isContentHtml, Bool.and_eq_true, beq_iff_eq] at h
    rw [h.1.1]

/-- C4 (amended): the record path emitted by the archive scanner and the
link emitted by the Recent scanner are the file path relative to
`SCRIPT_DIR` joined with forward slashes -- not relative to the content
store root: the leading `Content` segment is kept (and the Recent link is
that path with a leading `/`). -/
theorem c4_paths_script_relative (fs : FS) :
    (∀ f ∈ scanFiles fs, ∀ a, parseArchiveEntry f.1 f.2 = some a →
        a.path = joinSlash f.1 ∧ ∃ rest, f.1 = segContent :: rest) ∧
    (∀ f ∈ scanFiles fs, ∀ r, parseRecentEntry f.1 f.2 = some r →
        r.href = '/' :: joinSlash f.1 ∧ ∃ rest, f.1 = segContent :: rest) := by
  constructor
  · intro f hf a ha
    refine ⟨parseArchiveEntry_path ha, ?_⟩
    have hf2 : f ∈ List.filter (fun g => isContentHtml g.1) fs := hf
    have hc := List.of_mem_filter hf2
    exact isContentHtml_shape hc
  · intro f hf r hr
    refine ⟨parseRecentEntry_href hr, ?_⟩
    have hf2 : f ∈ List.filter (fun g => isContentHtml g.1) fs := hf
    have hc := List.of_mem_filter hf2
    exact isContentHtml_shape hc

/-- A store with one published document at
`Content/General/2024/03/X.html`. -/
def fsC4 : FS :=
  [([segContent, ("General").toList, ("2024").toList, ("03").toList,
     ("X.html").toList],
    ("<!--\nTITLE: T\nARTIST: A\nALBUM: Al\nYEAR: 2024\nTYPE: General\nAUTHOR: Ape\nDATE: 2024-03-05\n-->\nbody").toList)]

/-- C4 counterexample: the emitted record path keeps the leading `Content/`
segment (it is relative to `SCRIPT_DIR`), and differs from the
store-root-relative path `General/2024/03/X.html` the spec describes; the
Recent link gets the same script-relative path after `/`. -/
theorem c4_store_root_cex :
    (archiveEntries fsC4).map (fun a => a.path) =
      [("Content/General/2024/03/X.html").toList] ∧
    (recentEntries fsC4).map (fun r => r.href) =
      [("/Content/General/2024/03/X.html").toList] ∧
    ("Content/General/2024/03/X.html").toList ≠
      joinSlash [("General").toList, ("2024").toList, ("03").toList,
        ("X.html").toList] := by
  refine ⟨by decide, by decide, by decide⟩

/-! ### The metadata round trip (C5) -/

/-- C5 (amended): the round trip holds under `goodVal`, which strengthens
the claimed hypothesis: besides containing neither delimiter sequence
(`<!--`, `-->`), each value must be free of line breaks and must not start
or end with Python whitespace -- otherwise the line split or the `strip()`
calls of the parser change it (see the counterexample). Under `goodVal` on
all seven values, parsing the serialized block recovers exactly the seven
key-value pairs, in template order. -/
theorem c5_metadata_roundtrip (t a al y ty au d : Str)
    (ht : goodVal t) (ha : goodVal a) (hal : goodVal al) (hy : goodVal y)
    (hty : goodVal ty) (hau : goodVal au) (hd : goodVal d) :
    scanMetaDict (serializeMeta t a al y ty au d) =
      [(kTITLE, t), (kARTIST, a), (kALBUM, al), (kYEAR, y), (kTYPE, ty),
       (kAUTHOR, au), (kDATE, d)] :=
  metadata_roundtrip_core t a al y ty au d ht ha hal hy hty hau hd

/-- C5 counterexample: the title `" a"` (leading space) contains neither
delimiter sequence, satisfying the claimed hypothesis, yet the parser
strips the value: the round trip returns `"a"`, not `" a"`. -/
theorem c5_roundtrip_cex :
    containsSub dOpen [' ', 'a'] = false ∧
    containsSub dClose [' ', 'a'] = false ∧
    dictGetD (scanMetaDict (serializeMeta [' ', 'a'] [] [] [] [] [] []))
      kTITLE [] = ['a'] ∧
    dictGetD (scanMetaDict (serializeMeta [' ', 'a'] [] [] [] [] [] []))
      kTITLE [] ≠ [' ', 'a'] := by
  refine ⟨by decide, by decide, by decide, by decide⟩

theorem c5_metadata_roundtrip_witness :
    scanMetaDict (serializeMeta (("My Title").toList) (("The Band").toList)
        (("LP One").toList) (("2001").toList) (("General").toList)
        (("Ape").toList) (("2024-03-05").toList)) =
      [(kTITLE, ("My Title").toList), (kARTIST, ("The Band").toList),
       (kALBUM, ("LP One").toList), (kYEAR, ("2001").toList),
       (kTYPE, ("General").toList), (kAUTHOR, ("Ape").toList),
       (kDATE, ("2024-03-05").toList)] :=
  c5_metadata_roundtrip _ _ _ _ _ _ _
    (goodVal_of_b (by decide)) (goodVal_of_b (by decide))
    (goodVal_of_b (by decide)) (goodVal_of_b (by decide))
    (goodVal_of_b (by decide)) (goodVal_of_b (by decide))
    (goodVal_of_b (by decide))

end Rat
